import Mathlib

set_option maxRecDepth 100000

/-!
# commandy: extraction of install commands from an HTML page

A shallow embedding of `libs/cmdy.hpp`.  A `std::string` is a list of
characters (`Str`), one `Char` per `char` of the C++ string.  The two
regular expressions of `Commandy::parseResponse` are written as lists of
`Item`s and run by a backtracking matcher with the ECMAScript priorities
of `std::regex` (leftmost start, greedy quantifiers longest first, lazy
quantifiers shortest first).  `std::map<std::string, std::string>` is a
list of pairs kept in ascending key order.
-/

namespace Commandy

/-- A `std::string`. -/
abbrev Str := List Char

/-! ## Regular expressions -/

/-- The pieces of pattern that occur in the two regular expressions of
`parseResponse`: a literal character, a greedy `X*`, a lazy `X*?` and a
capture group `(X+)`, where `X` is a character class. -/
inductive Item where
  | lit (c : Char)
  | star (cls : Char → Bool)
  | lazyStar (cls : Char → Bool)
  | capPlus (cls : Char → Bool)

/-- A pattern is the concatenation of its items. -/
abbrev Regex := List Item

/-- The outcome of a successful match: the sub-matches of the capture groups
in pattern order, and the text after the match (`suffix()`). -/
structure MatchResult where
  groups : List Str
  suffix : Str
deriving DecidableEq, Repr

/-- Greedy `X*` followed by the rest of the pattern `k`: take one more
character of the class first, fall back to stopping here. -/
def starGreedy (cls : Char → Bool) (k : Str → Option MatchResult) : Str → Option MatchResult
  | [] => k []
  | c :: s =>
    if cls c then
      match starGreedy cls k s with
      | some r => some r
      | none => k (c :: s)
    else k (c :: s)

/-- Lazy `X*?` followed by the rest of the pattern `k`: try to stop here
first, take one more character of the class otherwise. -/
def starLazy (cls : Char → Bool) (k : Str → Option MatchResult) : Str → Option MatchResult
  | [] => k []
  | c :: s =>
    match k (c :: s) with
    | some r => some r
    | none => if cls c then starLazy cls k s else none

/-- Greedy `X*` inside a capture group: returns the text taken together with
the outcome of the rest of the pattern. -/
def groupStar (cls : Char → Bool) (k : Str → Option MatchResult) :
    Str → Option (Str × MatchResult)
  | [] => (k []).map fun r => ([], r)
  | c :: s =>
    if cls c then
      match groupStar cls k s with
      | some (g, r) => some (c :: g, r)
      | none => (k (c :: s)).map fun r => ([], r)
    else (k (c :: s)).map fun r => ([], r)

/-- Capture group `(X+)` followed by the rest of the pattern `k`. -/
def groupPlus (cls : Char → Bool) (k : Str → Option MatchResult) : Str → Option MatchResult
  | [] => none
  | c :: s =>
    if cls c then
      match groupStar cls k s with
      | some (g, r) => some ⟨(c :: g) :: r.groups, r.suffix⟩
      | none => none
    else none

/-- Match a pattern at the start of the text. -/
def matchHere : Regex → Str → Option MatchResult
  | [], s => some ⟨[], s⟩
  | .lit c :: re, s =>
    match s with
    | [] => none
    | x :: s' => if x = c then matchHere re s' else none
  | .star cls :: re, s => starGreedy cls (matchHere re) s
  | .lazyStar cls :: re, s => starLazy cls (matchHere re) s
  | .capPlus cls :: re, s => groupPlus cls (matchHere re) s

/-- The function `std::regex_search`: the match at the leftmost position that has one. -/
def regexSearch (re : Regex) : Str → Option MatchResult
  | [] => matchHere re []
  | c :: s =>
    match matchHere re (c :: s) with
    | some r => some r
    | none => regexSearch re s

/-- The sub-match `m[i].str()` for `i ≥ 1`; the empty string when the group is absent. -/
def MatchResult.group (m : MatchResult) (i : Nat) : Str :=
  m.groups.getD (i - 1) []

/-- A run of literal characters. -/
def lits (s : String) : Regex := s.toList.map Item.lit

/-- The class `[^"]`. -/
def notQuote (c : Char) : Bool := c != '"'

/-- The class `[^<]`. -/
def notLt (c : Char) : Bool := c != '<'

/-- The class `[^>]`. -/
def notGt (c : Char) : Bool := c != '>'

/-- The class `[\s\S]`. -/
def anyChar (_ : Char) : Bool := true

/-- The class `\s` in the "C" locale: space, `\t`, `\n`, `\v`, `\f`, `\r`. -/
def isSpace (c : Char) : Bool := c = ' ' || (9 ≤ c.toNat && c.toNat ≤ 13)

/-- The class `[A-Za-z]`. -/
def isAlpha (c : Char) : Bool :=
  (65 ≤ c.toNat && c.toNat ≤ 90) || (97 ≤ c.toNat && c.toNat ≤ 122)

/-- The pattern `installDivRegex` of `parseResponse`. -/
def installDivRegex : Regex :=
  lits "<div class=\"command-install install-" ++ [.capPlus notQuote] ++
  lits "\" data-os=\"" ++ [.capPlus notQuote] ++ lits "\">" ++
  [.lazyStar anyChar] ++ lits "<code>" ++ [.capPlus notLt] ++ lits "</code>" ++
  [.lazyStar anyChar] ++ lits "</div>"

/-- The pattern `codeBlockRegex` of `parseResponse`. -/
def codeBlockRegex : Regex :=
  lits "<dt" ++ [.star notGt] ++ lits ">" ++ [.star notLt] ++ [.capPlus isAlpha] ++
  [.star notLt] ++ lits "</dt>" ++ [.star isSpace] ++ lits "<dd" ++ [.star notGt] ++
  lits ">" ++ [.star isSpace] ++ lits "<code>" ++ [.capPlus notLt] ++ lits "</code>"

/-! ## `CommandInfo` -/

/-- The order `std::less<std::string>`: lexicographic comparison of the characters as
unsigned values; a proper prefix is smaller. -/
def strLess : Str → Str → Bool
  | _, [] => false
  | [], _ :: _ => true
  | a :: s, b :: t =>
    if a.toNat < b.toNat then true
    else if b.toNat < a.toNat then false
    else strLess s t

/-- The assignment `installCommands[k] = v` on a `std::map`, kept as a list of pairs in
ascending key order: the value of an equivalent key is replaced, a new key
is inserted at its place. -/
def mapAssign : List (Str × Str) → Str → Str → List (Str × Str)
  | [], k, v => [(k, v)]
  | (k', v') :: m, k, v =>
    if strLess k k' then (k, v) :: (k', v') :: m
    else if strLess k' k then (k', v') :: mapAssign m k v
    else (k', v) :: m

/-- The lookup `installCommands.find(k)`: the value of the entry whose key is equivalent
to `k` (neither is less than the other), `none` for `end()`. -/
def mapFind : List (Str × Str) → Str → Option Str
  | [], _ => none
  | (k', v') :: m, k =>
    if !strLess k k' && !strLess k' k then some v' else mapFind m k

/-- The class `CommandInfo`: the query name and the map of install commands. -/
structure CommandInfo where
  name : Str
  installCommands : List (Str × Str)
deriving DecidableEq, Repr

/-- The constructor `CommandInfo(cmdName)`. -/
def CommandInfo.new (cmdName : Str) : CommandInfo := ⟨cmdName, []⟩

def CommandInfo.addDistroCommand (self : CommandInfo) (distro command : Str) : CommandInfo :=
  { self with installCommands := mapAssign self.installCommands distro command }

def CommandInfo.getName (self : CommandInfo) : Str := self.name

/-- The string `getCommand` returns for a distro that is not in the map. -/
def notFoundMessage : Str := "No installation command found for this distribution".toList

def CommandInfo.getCommand (self : CommandInfo) (distro : Str) : Str :=
  match mapFind self.installCommands distro with
  | some command => command
  | none => notFoundMessage

def CommandInfo.hasDistro (self : CommandInfo) (distro : Str) : Bool :=
  (mapFind self.installCommands distro).isSome

def CommandInfo.getSupportedDistros (self : CommandInfo) : List Str :=
  self.installCommands.map Prod.fst

/-! ## `Commandy::parseResponse` -/

/-- The chain of comparisons that maps the class suffix of a primary match
to the key it is stored under. -/
def primaryKey (distroClass : Str) : Str :=
  if distroClass = "ubuntu".toList ∨ distroClass = "debian".toList then "ubuntu".toList
  else if distroClass = "fedora".toList ∨ distroClass = "centos".toList ∨
      distroClass = "rhel".toList then "fedora".toList
  else if distroClass = "alpine".toList then "alpine".toList
  else if distroClass = "arch".toList then "arch".toList
  else if distroClass = "suse".toList ∨ distroClass = "opensuse".toList then "suse".toList
  else if distroClass = "gentoo".toList then "gentoo".toList
  else distroClass

/-- The function `std::tolower` on an `unsigned char` in the "C" locale. -/
def toLowerChar (c : Char) : Char :=
  if 65 ≤ c.toNat ∧ c.toNat ≤ 90 then Char.ofNat (c.toNat + 32) else c

/-- The test `s.find(t) != std::string::npos`: `t` occurs in `s`. -/
def strContains : Str → Str → Bool
  | [], t => t.isEmpty
  | c :: s, t => t.isPrefixOf (c :: s) || strContains s t

/-- The lowercasing and the chain of `find` tests that map the `<dt>` capture
of a fallback match to the key it is stored under. -/
def fallbackKey (distroName : Str) : Str :=
  let distroKey := distroName.map toLowerChar
  if strContains distroKey "ubuntu".toList ∨ strContains distroKey "debian".toList then
    "ubuntu".toList
  else if strContains distroKey "fedora".toList ∨ strContains distroKey "centos".toList then
    "fedora".toList
  else if strContains distroKey "alpine".toList then "alpine".toList
  else if strContains distroKey "arch".toList then "arch".toList
  else if strContains distroKey "suse".toList then "suse".toList
  else if strContains distroKey "gentoo".toList then "gentoo".toList
  else distroKey

/-- Body of the first `while` loop: store the command of a primary match. -/
def primaryBody (cmdInfo : CommandInfo) (divMatch : MatchResult) : CommandInfo :=
  cmdInfo.addDistroCommand (primaryKey (divMatch.group 1)) (divMatch.group 3)

/-- Body of the second `while` loop: store the command of a fallback match. -/
def fallbackBody (cmdInfo : CommandInfo) (codeMatch : MatchResult) : CommandInfo :=
  cmdInfo.addDistroCommand (fallbackKey (codeMatch.group 1)) (codeMatch.group 2)

/-- The loop `while (regex_search(searchStart, searchEnd, m, re)) { body;
searchStart = m.suffix().first; }`, run for at most `fuel` tests of its
condition; `none` when the fuel runs out before the search fails. -/
def searchLoop (re : Regex) (body : CommandInfo → MatchResult → CommandInfo) :
    Nat → Str → CommandInfo → Option CommandInfo
  | 0, _, _ => none
  | fuel + 1, s, cmdInfo =>
    match regexSearch re s with
    | none => some cmdInfo
    | some m => searchLoop re body fuel m.suffix (body cmdInfo m)

/-- The method `Commandy::parseResponse`.  Each loop gets one more unit of fuel than
the response has characters. -/
def parseResponse (response cmdName : Str) : Option CommandInfo :=
  match searchLoop installDivRegex primaryBody (response.length + 1) response
      (CommandInfo.new cmdName) with
  | none => none
  | some cmdInfo =>
    if cmdInfo.getSupportedDistros.isEmpty then
      searchLoop codeBlockRegex fallbackBody (response.length + 1) response cmdInfo
    else some cmdInfo

/-- The successive matches the loop of `searchLoop` sees, in document order. -/
def searchAll (re : Regex) : Nat → Str → List MatchResult
  | 0, _ => []
  | fuel + 1, s =>
    match regexSearch re s with
    | none => []
    | some m => m :: searchAll re fuel m.suffix

/-- The matches of the primary strategy in a document. -/
def primaryMatches (response : Str) : List MatchResult :=
  searchAll installDivRegex (response.length + 1) response

/-- The matches of the fallback strategy in a document. -/
def fallbackMatches (response : Str) : List MatchResult :=
  searchAll codeBlockRegex (response.length + 1) response

/-! ## Auxiliary notions for the proofs -/

/-- A continuation that cannot start on a character of the class. -/
def Rejects (cls : Char → Bool) (k : Str → Option MatchResult) : Prop :=
  ∀ x t, cls x = true → k (x :: t) = none

/-- The least number of characters a pattern consumes. -/
def minLen : Regex → Nat
  | [] => 0
  | .lit _ :: re => minLen re + 1
  | .star _ :: re => minLen re
  | .lazyStar _ :: re => minLen re
  | .capPlus _ :: re => minLen re + 1

/-- The number of capture groups of a pattern. -/
def numGroups : Regex → Nat
  | [] => 0
  | .lit _ :: re => numGroups re
  | .star _ :: re => numGroups re
  | .lazyStar _ :: re => numGroups re
  | .capPlus _ :: re => numGroups re + 1

/-- The matches of a pattern in a text, with the fuel `parseResponse` gives. -/
def matchesOf (re : Regex) (s : Str) : List MatchResult :=
  searchAll re (s.length + 1) s

/-- The keys of a map are strictly ascending for `std::less`. -/
def KeysAscending (m : List (Str × Str)) : Prop :=
  (m.map Prod.fst).Pairwise fun a b => strLess a b = true

/-- The record after the calls `addDistroCommand(k, v)` for the pairs of
`ops`, in order. -/
def addAll (cmdInfo : CommandInfo) (ops : List (Str × Str)) : CommandInfo :=
  ops.foldl (fun info p => info.addDistroCommand p.1 p.2) cmdInfo

/-- The entry the first loop stores for a primary match. -/
def primaryEntry (m : MatchResult) : Str × Str := (primaryKey (m.group 1), m.group 3)

/-- The entry the second loop stores for a fallback match. -/
def fallbackEntry (m : MatchResult) : Str × Str := (fallbackKey (m.group 1), m.group 2)

/-! ## The pieces of the primary pattern and block documents -/

/-- The literal pieces of `installDivRegex`. -/
def divOpen : Str := "<div class=\"command-install install-".toList

def dataOs : Str := "\" data-os=\"".toList

def tagEnd : Str := "\">".toList

def codeOpen : Str := "<code>".toList

def codeClose : Str := "</code>".toList

def divClose : Str := "</div>".toList

/-- The part of `installDivRegex` from `<code>` on. -/
def codeTail : Regex :=
  codeOpen.map Item.lit ++
    (Item.capPlus notLt :: (codeClose.map Item.lit ++
      (Item.lazyStar anyChar :: divClose.map Item.lit)))

/-- The three texts of a block `<div class="command-install install-D"
data-os="O"><code>C</code></div>`. -/
structure Block where
  distro : Str
  os : Str
  command : Str
deriving DecidableEq, Repr

/-- The text of a block. -/
def Block.html (b : Block) : Str :=
  divOpen ++ (b.distro ++ (dataOs ++ (b.os ++ (tagEnd ++
    (codeOpen ++ (b.command ++ (codeClose ++ divClose)))))))

/-- A block is well formed: the class suffix and the `data-os` value are
non-empty without `"`, the command is non-empty without `<`. -/
def Block.WellFormed (b : Block) : Prop :=
  b.distro ≠ [] ∧ '"' ∉ b.distro ∧ b.os ≠ [] ∧ '"' ∉ b.os ∧
    b.command ≠ [] ∧ '<' ∉ b.command

instance (b : Block) : Decidable b.WellFormed := by
  unfold Block.WellFormed; infer_instance

/-- The document `lead ++ block₁ ++ sep₁ ++ … ++ blockₙ ++ sepₙ`. -/
def document (lead : Str) : List (Block × Str) → Str
  | [] => lead
  | (b, sep) :: rest => lead ++ (b.html ++ document sep rest)

/-- The text starts with a `<code>` element the pattern can capture: `<code>`,
a non-empty run of characters other than `<`, then `</code>`. -/
def codeElemAt (s : Str) : Bool :=
  codeOpen.isPrefixOf s &&
    (!((s.drop codeOpen.length).takeWhile notLt).isEmpty &&
      codeClose.isPrefixOf ((s.drop codeOpen.length).dropWhile notLt))

/-- No position inside `pre`, in the text `pre ++ t`, starts such an element. -/
def noEarlierCode : Str → Str → Bool
  | [], _ => true
  | c :: pre, t => !codeElemAt (c :: pre ++ t) && noEarlierCode pre t

/-! ## Concrete documents -/

/-- Scenario S1: one `install-ubuntu` block. -/
def docS1 : Str :=
  "<div class=\"command-install install-ubuntu\" data-os=\"Ubuntu\"><code>sudo apt install tree</code></div>".toList

def blockUbuntu : Block :=
  ⟨"ubuntu".toList, "Ubuntu".toList, "sudo apt install tree".toList⟩

def blockArch : Block :=
  ⟨"arch".toList, "Arch Linux".toList, "pacman -S tree".toList⟩

/-- Scenario S2: blocks for `install-fedora`, `install-centos`, `install-rhel`. -/
def docS2 : Str :=
  ("<div class=\"command-install install-fedora\" data-os=\"Fedora\"><code>dnf install tree</code></div>\n" ++
   "<div class=\"command-install install-centos\" data-os=\"CentOS\"><code>yum install tree</code></div>\n" ++
   "<div class=\"command-install install-rhel\" data-os=\"RHEL\"><code>yum install -y tree</code></div>").toList

/-- Scenario S4: a definition-list entry and no primary block. -/
def docS4 : Str := "<dt>Arch Linux</dt><dd><code>pacman -S neovim</code></dd>".toList

/-- Scenario S5: a block whose class suffix is not in the table, here with a
capital letter. -/
def docPlan9 : Str :=
  "<div class=\"command-install install-Plan9\" data-os=\"Plan 9\"><code>pkg add tree</code></div>".toList

/-- A div without `<code>` followed by a div with one. -/
def docNoCode : Str :=
  ("<div class=\"command-install install-arch\" data-os=\"Arch\"><p>not packaged</p></div>" ++
   "<div class=\"command-install install-ubuntu\" data-os=\"Ubuntu\"><code>apt install tree</code></div>").toList

/-- A div whose first `<code>` is empty and whose second is not. -/
def docEmptyCode : Str :=
  "<div class=\"command-install install-arch\" data-os=\"Arch\"><code></code><code>pacman -S tree</code></div>".toList

/-- A primary block followed by a definition-list entry. -/
def docMixed : Str := docS1 ++ docS4

/-! ## Colours, icons and the metadata of a distro -/

/-- The SGR sequence `Color::RESET`. -/
def Color.RESET : Str := "\x1b[0m".toList
/-- The SGR sequence `Color::BOLD`. -/
def Color.BOLD : Str := "\x1b[1m".toList
/-- The SGR sequence `Color::DIM`. -/
def Color.DIM : Str := "\x1b[2m".toList
/-- The SGR sequence `Color::RED`. -/
def Color.RED : Str := "\x1b[31m".toList
/-- The SGR sequence `Color::GREEN`. -/
def Color.GREEN : Str := "\x1b[32m".toList
/-- The SGR sequence `Color::YELLOW`. -/
def Color.YELLOW : Str := "\x1b[33m".toList
/-- The SGR sequence `Color::BLUE`. -/
def Color.BLUE : Str := "\x1b[34m".toList
/-- The SGR sequence `Color::CYAN`. -/
def Color.CYAN : Str := "\x1b[36m".toList
/-- The SGR sequence `Color::BRIGHT_RED`. -/
def Color.BRIGHT_RED : Str := "\x1b[91m".toList
/-- The SGR sequence `Color::BRIGHT_GREEN`. -/
def Color.BRIGHT_GREEN : Str := "\x1b[92m".toList
/-- The SGR sequence `Color::BRIGHT_YELLOW`. -/
def Color.BRIGHT_YELLOW : Str := "\x1b[93m".toList
/-- The SGR sequence `Color::BRIGHT_BLUE`. -/
def Color.BRIGHT_BLUE : Str := "\x1b[94m".toList
/-- The SGR sequence `Color::BRIGHT_MAGENTA`. -/
def Color.BRIGHT_MAGENTA : Str := "\x1b[95m".toList
/-- The SGR sequence `Color::BRIGHT_CYAN`. -/
def Color.BRIGHT_CYAN : Str := "\x1b[96m".toList
/-- The SGR sequence `Color::BRIGHT_WHITE`. -/
def Color.BRIGHT_WHITE : Str := "\x1b[97m".toList

/-- The three `char`s of the UTF-8 encoding of a glyph. -/
def glyph (a b c : Nat) : Str := [Char.ofNat a, Char.ofNat b, Char.ofNat c]

/-- The glyph `Icon::UBUNTU`, U+EF72. -/
def Icon.UBUNTU : Str := glyph 0xEE 0xBD 0xB2
/-- The glyph `Icon::FEDORA`, U+E7D9. -/
def Icon.FEDORA : Str := glyph 0xEE 0x9F 0x99
/-- The glyph `Icon::ALPINE`, U+F300. -/
def Icon.ALPINE : Str := glyph 0xEF 0x8C 0x80
/-- The glyph `Icon::WSL`, U+E62A. -/
def Icon.WSL : Str := glyph 0xEE 0x98 0xAA
/-- The glyph `Icon::ARCH`, U+E732. -/
def Icon.ARCH : Str := glyph 0xEE 0x9C 0xB2
/-- The glyph `Icon::SUSE`, U+EF6D. -/
def Icon.SUSE : Str := glyph 0xEE 0xBD 0xAD
/-- The glyph `Icon::GENTOO`, U+E7E6. -/
def Icon.GENTOO : Str := glyph 0xEE 0x9F 0xA6
/-- The glyph `Icon::DEBIAN`, U+E77D. -/
def Icon.DEBIAN : Str := glyph 0xEE 0x9D 0xBD
/-- The glyph `Icon::PACKAGE`, U+EB29. -/
def Icon.PACKAGE : Str := glyph 0xEE 0xAC 0xA9
/-- The glyph `Icon::SEARCH`, U+EA6D. -/
def Icon.SEARCH : Str := glyph 0xEE 0xA9 0xAD
/-- The glyph `Icon::CHECK`, U+EAB2. -/
def Icon.CHECK : Str := glyph 0xEE 0xAA 0xB2
/-- The glyph `Icon::WARN`, U+F071. -/
def Icon.WARN : Str := glyph 0xEF 0x81 0xB1
/-- The glyph `Icon::ERROR`, U+EA87. -/
def Icon.ERROR : Str := glyph 0xEE 0xAA 0x87
/-- The glyph `Icon::ARROW`, U+EA9C. -/
def Icon.ARROW : Str := glyph 0xEE 0xAA 0x9C

/-- The function `getDistroIcon`. -/
def getDistroIcon (distro : Str) : Str :=
  if distro = "ubuntu".toList ∨ distro = "debian".toList then Icon.UBUNTU
  else if distro = "fedora".toList ∨ distro = "centos".toList ∨ distro = "rhel".toList then
    Icon.FEDORA
  else if distro = "alpine".toList then Icon.ALPINE
  else if distro = "arch".toList then Icon.ARCH
  else if distro = "suse".toList ∨ distro = "opensuse".toList then Icon.SUSE
  else if distro = "gentoo".toList then Icon.GENTOO
  else if distro = "kali".toList then Icon.DEBIAN
  else if distro = "windows".toList then Icon.WSL
  else Icon.PACKAGE

/-- The function `getDistroColor`. -/
def getDistroColor (distro : Str) : Str :=
  if distro = "ubuntu".toList ∨ distro = "debian".toList then Color.BRIGHT_MAGENTA
  else if distro = "fedora".toList ∨ distro = "centos".toList ∨ distro = "rhel".toList ∨
      distro = "kali".toList then Color.BRIGHT_BLUE
  else if distro = "alpine".toList then Color.BRIGHT_CYAN
  else if distro = "arch".toList then Color.BRIGHT_CYAN
  else if distro = "suse".toList ∨ distro = "opensuse".toList then Color.BRIGHT_GREEN
  else if distro = "gentoo".toList then Color.BRIGHT_MAGENTA
  else Color.BRIGHT_WHITE

/-- The method `getAllCommands`: one line `distro: cmd` per entry of the map,
in the order of the map. -/
def CommandInfo.getAllCommands (self : CommandInfo) : Str :=
  (self.installCommands.map fun p => p.1 ++ ": ".toList ++ p.2 ++ "\n".toList).flatten

/-! ## `CommandInfo::formatCommand` -/

/-- One position of a pattern used by `formatCommand`: a literal character or
the wildcard `.`. -/
inductive Atom where
  | chr (c : Char)
  | dot
deriving DecidableEq, Repr

/-- The characters an atom matches; `.` matches everything but `\n` and `\r`. -/
def Atom.accepts : Atom → Char → Bool
  | .chr c, x => x == c
  | .dot, x => x != '\n' && x != '\r'

/-- A sequence of atoms matches at the start of the text. -/
def matchAtoms : List Atom → Str → Bool
  | [], _ => true
  | _ :: _, [] => false
  | a :: alt, x :: s => a.accepts x && matchAtoms alt s

/-- The pattern `(alt₁|alt₂|…)` at the start of the text: the length of the
match of the first alternative, in the order written, that matches; with
`notNull` (the flag `match_not_null`) an empty match is not accepted. -/
def matchGroup (notNull : Bool) : List (List Atom) → Str → Option Nat
  | [], _ => none
  | alt :: alts, s =>
    if matchAtoms alt s && !(notNull && alt.isEmpty) then some alt.length
    else matchGroup notNull alts s

/-- The call `std::regex_replace(s, re, before + "$1" + after)` for a pattern
`re = (alt₁|alt₂|…)`: every match found from left to right is replaced by
`before`, the matched text and `after`; the text between the matches is
copied.  `skip` counts the characters of the current match that are still
to be passed over.  After an empty match the iterator first looks for a
non-empty match at the same place and otherwise copies one character. -/
def regexReplace (alts : List (List Atom)) (before after : Str) : Nat → Str → Str
  | _, [] =>
    match matchGroup false alts [] with
    | some _ => before ++ after
    | none => []
  | skip + 1, _ :: s => regexReplace alts before after skip s
  | 0, c :: s =>
    match matchGroup false alts (c :: s) with
    | none => c :: regexReplace alts before after 0 s
    | some (n + 1) =>
      before ++ (c :: s).take (n + 1) ++ after ++ regexReplace alts before after n s
    | some 0 =>
      before ++ after ++
        (match matchGroup true alts (c :: s) with
        | some (n + 1) =>
          before ++ (c :: s).take (n + 1) ++ after ++ regexReplace alts before after n s
        | _ => c :: regexReplace alts before after 0 s)

/-- The characters with a special meaning in an ECMAScript pattern. -/
def metaChars : Str := "^$\\.*+?()[]\x7b\x7d|".toList

/-- The body of the pattern `"(" + name + ")"`: a character without special
meaning stands for itself and `.` is the wildcard.  Names with any other
special character are not covered by this model (`none`): the code reads
them as pattern syntax too and, where the pattern is well formed, returns a
string that this model does not compute. -/
def nameAtoms : Str → Option (List Atom)
  | [] => some []
  | c :: s =>
    if c = '.' then (nameAtoms s).map fun alt => Atom.dot :: alt
    else if c ∈ metaChars then none
    else (nameAtoms s).map fun alt => Atom.chr c :: alt

/-- A literal alternative. -/
def word (s : String) : List Atom := s.toList.map Atom.chr

/-- The pattern `(sudo)`. -/
def sudoRegex : List (List Atom) := [word "sudo"]

/-- The pattern `(apt|apt-get|dnf|yum|pacman|apk|zypper|emerge)`. -/
def packageManagerRegex : List (List Atom) :=
  [word "apt", word "apt-get", word "dnf", word "yum", word "pacman", word "apk",
    word "zypper", word "emerge"]

/-- The pattern `(install|add|get)`. -/
def installRegex : List (List Atom) := [word "install", word "add", word "get"]

/-- The first three substitutions of `formatCommand`: `sudo` in red, the
package managers in blue, the install words in green. -/
def highlightTokens (command : Str) : Str :=
  let result := command
  let result := regexReplace sudoRegex Color.RED Color.RESET 0 result
  let result := regexReplace packageManagerRegex Color.BLUE Color.RESET 0 result
  let result := regexReplace installRegex Color.GREEN Color.RESET 0 result
  result

/-- The method `formatCommand`: the three token substitutions, then the name of
the record, used as a pattern, in cyan and bold. -/
def CommandInfo.formatCommand (self : CommandInfo) (command : Str) : Option Str :=
  let result := highlightTokens command
  match nameAtoms self.name with
  | none => none
  | some alt => some (regexReplace [alt] (Color.CYAN ++ Color.BOLD) Color.RESET 0 result)

/-- The highlight tokens of `formatCommand`. -/
def highlightWords : List Str :=
  ["sudo".toList, "apt".toList, "apt-get".toList, "dnf".toList, "yum".toList,
    "pacman".toList, "apk".toList, "zypper".toList, "emerge".toList, "install".toList,
    "add".toList, "get".toList]

/-! ## `operator<<` for a `CommandInfo` -/

/-- The variable `maxCmdLength` of `operator<<`: `width - 12` with `width = 80`. -/
def maxCmdLength : Nat := 80 - 12

/-- The loop `while (pos < formattedCmd.length())` of `operator<<`, run for at
most `fuel` tests of its condition: the chunks `formattedCmd.substr(pos,
chunk)` it writes, in order; `none` when the fuel runs out. -/
def continuationChunks (formattedCmd : Str) : Nat → Nat → Option (List Str)
  | 0, _ => none
  | fuel + 1, pos =>
    if pos < formattedCmd.length then
      let chunk := min (maxCmdLength - 12) (formattedCmd.length - pos)
      (continuationChunks formattedCmd fuel (pos + chunk)).map
        fun rest => (formattedCmd.drop pos).take chunk :: rest
    else some []

/-- What `operator<<` writes for the command of one entry, after the distro
column: one line when `cmd.length() <= maxCmdLength`, otherwise the first
`maxCmdLength - 3` characters of the formatted command with `...` and then
one indented line per chunk.  The loop gets one more unit of fuel than the
formatted command has characters. -/
def streamCommand (cmd formattedCmd : Str) : Option Str :=
  if cmd.length ≤ maxCmdLength then
    some (Icon.ARROW ++ " ".toList ++ formattedCmd ++ "\n".toList)
  else
    match continuationChunks formattedCmd (formattedCmd.length + 1) (maxCmdLength - 3) with
    | none => none
    | some chunks =>
      some (Icon.ARROW ++ " ".toList ++ formattedCmd.take (maxCmdLength - 3) ++ "...".toList ++
        "\n".toList ++
        (chunks.map fun chunk => List.replicate 12 ' ' ++ chunk ++ "\n".toList).flatten)

/-- The distro column of an entry: icon, blank, colour, the distro
left-justified in a field of width 10 (`std::left << std::setw(10)`), reset. -/
def distroColumn (distro : Str) : Str :=
  getDistroIcon distro ++ " ".toList ++ getDistroColor distro ++ distro ++
    List.replicate (10 - distro.length) ' ' ++ Color.RESET

/-- What `operator<<` writes for one entry of the map once
`cmdInfo.formatCommand(cmd)` has returned the string `formattedCmd`. -/
def streamEntryWith (distro cmd formattedCmd : Str) : Option Str :=
  match streamCommand cmd formattedCmd with
  | none => none
  | some out => some (distroColumn distro ++ out)

/-- What `operator<<` writes for one entry of the map.  It is `none` where
`formatCommand` is (a record name outside the model of `nameAtoms`); what
does not depend on the name is stated on `streamEntryWith`. -/
def CommandInfo.streamEntry (self : CommandInfo) (distro cmd : Str) : Option Str :=
  match self.formatCommand cmd with
  | none => none
  | some formattedCmd => streamEntryWith distro cmd formattedCmd

/-- The loop of `operator<<` over the entries of the map. -/
def CommandInfo.streamEntries (self : CommandInfo) : List (Str × Str) → Option Str
  | [] => some []
  | (distro, cmd) :: rest =>
    match self.streamEntry distro cmd, CommandInfo.streamEntries self rest with
    | some out, some outs => some (out ++ outs)
    | _, _ => none

/-- The operator `operator<<(std::ostream&, const CommandInfo&)`: the text it
writes to the stream. -/
def CommandInfo.streamOut (self : CommandInfo) : Option Str :=
  let header := "\n".toList ++ Color.BOLD ++ Color.BRIGHT_WHITE ++ "Command: ".toList ++
    Color.RESET ++ Color.BRIGHT_YELLOW ++ self.name ++ Color.RESET ++ "\n".toList ++
    Color.BOLD ++ Color.BRIGHT_WHITE ++ "Installation Commands:".toList ++ Color.RESET ++
    "\n".toList
  if self.installCommands.isEmpty then
    some (header ++ Icon.WARN ++ " ".toList ++ Color.YELLOW ++
      "No installation commands found".toList ++ Color.RESET ++ "\n".toList ++ "\n".toList)
  else
    match self.streamEntries self.installCommands with
    | none => none
    | some entries => some (header ++ entries ++ "\n".toList)

/-! ## `Commandy::search_for` and `main` -/

/-- What `main` reads from the command line parser: `get_argument("command")`,
`get_argument("distro")` and `has_option("list")`. -/
structure Args where
  command : Str
  distro : Str
  list : Bool
deriving DecidableEq, Repr

/-- The outcome of `curl_easy_perform`: the response body, or a transport error
with the text of `curl_easy_strerror`. -/
inductive Fetch where
  | body (readBuffer : Str)
  | error (message : Str)
deriving DecidableEq, Repr

/-- What a call of `search_for` leaves behind: the text written to `std::cout`
and to `std::cerr`, and either the record it returns or the `what()` of the
exception it throws. -/
structure SearchResult where
  stdout : Str
  stderr : Str
  result : Except Str CommandInfo

/-- What a run of `main` leaves behind: the text written to `std::cout` and to
`std::cerr`, and the exit code. -/
structure Process where
  stdout : Str
  stderr : Str
  exitCode : Nat
deriving DecidableEq, Repr

/-- The line `Searching for <command>...` of `search_for`. -/
def searchingBanner (command : Str) : Str :=
  Icon.SEARCH ++ " ".toList ++ Color.BRIGHT_WHITE ++ "Searching for ".toList ++
    Color.BRIGHT_YELLOW ++ command ++ Color.RESET ++ "...".toList ++ "\n".toList

/-- The line `Found information for <command>` of `search_for`. -/
def foundBanner (command : Str) : Str :=
  Icon.CHECK ++ " ".toList ++ Color.BRIGHT_GREEN ++ "Found information for ".toList ++
    Color.BRIGHT_YELLOW ++ command ++ Color.RESET ++ "\n".toList

/-- The method `Commandy::search_for` with the outcome of the transfer given:
on a transport error it writes the error line to `std::cerr` and throws
`std::runtime_error`; otherwise it returns `parseResponse(readBuffer,
command)`.  The result is `none` only if a loop of `parseResponse` runs out
of fuel. -/
def search_for (command : Str) (fetch : Fetch) : Option SearchResult :=
  match fetch with
  | .error message =>
    some ⟨searchingBanner command,
      Icon.ERROR ++ " ".toList ++ Color.BRIGHT_RED ++ "Error: ".toList ++ message ++
        Color.RESET ++ "\n".toList,
      .error ("cURL request failed: ".toList ++ message)⟩
  | .body readBuffer =>
    match parseResponse readBuffer command with
    | none => none
    | some cmdInfo =>
      some ⟨searchingBanner command ++ foundBanner command, [], .ok cmdInfo⟩

/-- The line of list mode for the distro `d`. -/
def listLine (command : CommandInfo) (d : Str) : Str :=
  "  ".toList ++ Icon.ARROW ++ " ".toList ++ getDistroColor d ++ getDistroIcon d ++
    " ".toList ++ d ++ ": ".toList ++ Color.RESET ++ Color.DIM ++ command.getCommand d ++
    Color.RESET ++ "\n".toList

/-- The part of `main` after `search_for` has returned the record `command`:
the text written to `std::cout` and the exit code. -/
def mainReport (args : Args) (command : CommandInfo) : Str × Nat :=
  if !args.list then
    ("\n".toList ++ getDistroIcon args.distro ++ args.distro ++ ": ".toList ++
      command.getCommand args.distro ++ "\n".toList, 0)
  else
    let distros := command.getSupportedDistros
    if distros.isEmpty then
      ("This tool was not found".toList, 1)
    else
      ("\n".toList ++ (distros.map fun d => listLine command d).flatten, 0)

/-- The function `main` after the command line has been parsed, with the
outcome of the transfer given.  An exception of `search_for` is caught, its
`what()` is written to `std::cerr`, and control reaches the end of `main`. -/
def main (args : Args) (fetch : Fetch) : Option Process :=
  match search_for args.command fetch with
  | none => none
  | some r =>
    match r.result with
    | .error what => some ⟨r.stdout, r.stderr ++ what ++ "\n".toList, 0⟩
    | .ok command =>
      some ⟨r.stdout ++ (mainReport args command).1, r.stderr, (mainReport args command).2⟩

/-! ## The pieces of the fallback pattern -/

/-- The literal pieces of `codeBlockRegex` around the `<dt>` text. -/
def dtOpen : Str := "<dt".toList

def dtClose : Str := "</dt>".toList

/-- The part of `codeBlockRegex` after `</dt>`. -/
def ddTail : Regex :=
  [.star isSpace] ++ lits "<dd" ++ [.star notGt] ++ lits ">" ++ [.star isSpace] ++
    lits "<code>" ++ [.capPlus notLt] ++ lits "</code>"

/-- The substrings the fallback chain looks for. -/
def fallbackWords : List Str :=
  ["ubuntu".toList, "debian".toList, "fedora".toList, "centos".toList, "alpine".toList,
    "arch".toList, "suse".toList, "gentoo".toList]

/-- A div whose first two `<code>` elements are empty or hold markup, whose
third is plain and whose fourth comes later, followed by a second block. -/
def docFirstCode : Str :=
  ("<p>intro</p><div class=\"command-install install-arch\" data-os=\"Arch Linux\">" ++
   "\n<p>x</p><code></code><code><b>x</b></code>\n" ++
   "<code>pacman -S tree</code><code>later</code></div>" ++
   "<div class=\"command-install install-ubuntu\" data-os=\"Ubuntu\"><code>sudo apt install tree</code></div>").toList

theorem matchHere_lits (cs : Str) (re : Regex) (s : Str) :
    matchHere (cs.map Item.lit ++ re) s =
      if cs.isPrefixOf s then matchHere re (s.drop cs.length) else none := by
  induction cs generalizing s with
  | nil => simp
  | cons c cs ih =>
    cases s with
    | nil => simp [matchHere]
    | cons x s =>
      by_cases h : x = c
      · subst h; simp [matchHere, ih]
      · have h' : ¬ c = x := fun e => h e.symm
        simp [matchHere, h, h']

theorem matchHere_lits_append (cs : Str) (re : Regex) (s : Str) :
    matchHere (cs.map Item.lit ++ re) (cs ++ s) = matchHere re s := by
  induction cs with
  | nil => simp
  | cons c cs ih => simp [matchHere, ih]

theorem matchHere_lit_ne (c x : Char) (re : Regex) (s : Str) (h : x ≠ c) :
    matchHere (Item.lit c :: re) (x :: s) = none := by
  simp [matchHere, h]

theorem rejects_lit (cls : Char → Bool) (q : Char) (re : Regex) (hq : cls q = false) :
    Rejects cls (matchHere (Item.lit q :: re)) := by
  intro x t hx
  apply matchHere_lit_ne
  intro e; subst e; simp [hx] at hq

theorem groupStar_eq (cls : Char → Bool) (k : Str → Option MatchResult)
    (hk : Rejects cls k) (s : Str) :
    groupStar cls k s = (k (s.dropWhile cls)).map fun r => (s.takeWhile cls, r) := by
  induction s with
  | nil => simp [groupStar]
  | cons c s ih =>
    by_cases hc : cls c = true
    · simp only [groupStar, hc, if_true, ih, List.dropWhile_cons_of_pos, List.takeWhile_cons_of_pos]
      cases hks : k (List.dropWhile cls s) with
      | none => simp [hk c s hc]
      | some r => simp
    · simp [groupStar, hc, List.dropWhile_cons_of_neg, List.takeWhile_cons_of_neg]

/-- A capture group `(X+)` before a continuation that cannot start inside the
class takes the longest run of class characters, which must be non-empty. -/
theorem groupPlus_eq (cls : Char → Bool) (k : Str → Option MatchResult)
    (hk : Rejects cls k) (s : Str) :
    groupPlus cls k s =
      if s.takeWhile cls = [] then none
      else (k (s.dropWhile cls)).map fun r => ⟨s.takeWhile cls :: r.groups, r.suffix⟩ := by
  cases s with
  | nil => simp [groupPlus]
  | cons c s =>
    by_cases hc : cls c = true
    · simp only [groupPlus, hc, if_true, groupStar_eq cls k hk, List.dropWhile_cons_of_pos,
        List.takeWhile_cons_of_pos]
      cases hks : k (List.dropWhile cls s) <;> simp
    · simp [groupPlus, hc, List.takeWhile_cons_of_neg]

/-- A greedy `X*` before a continuation that cannot start inside the class
takes the longest run of class characters. -/
theorem starGreedy_eq (cls : Char → Bool) (k : Str → Option MatchResult)
    (hk : Rejects cls k) (s : Str) :
    starGreedy cls k s = k (s.dropWhile cls) := by
  induction s with
  | nil => simp [starGreedy]
  | cons c s ih =>
    by_cases hc : cls c = true
    · simp only [starGreedy, hc, if_true, ih, List.dropWhile_cons_of_pos]
      cases hks : k (List.dropWhile cls s) with
      | none => simp [hk c s hc]
      | some r => simp
    · simp [starGreedy, hc, List.dropWhile_cons_of_neg]

theorem starLazy_of_some (cls : Char → Bool) (k : Str → Option MatchResult) (s : Str)
    (r : MatchResult) (h : k s = some r) : starLazy cls k s = some r := by
  cases s with
  | nil => simpa [starLazy] using h
  | cons c s => simp [starLazy, h]

/-- A lazy `X*?` steps over a stretch of class characters on which the
continuation fails at every position. -/
theorem starLazy_skip (cls : Char → Bool) (k : Str → Option MatchResult) (pre t : Str)
    (hcls : ∀ c ∈ pre, cls c = true)
    (hfail : ∀ a b, pre = a ++ b → b ≠ [] → k (b ++ t) = none) :
    starLazy cls k (pre ++ t) = starLazy cls k t := by
  induction pre with
  | nil => simp
  | cons c pre ih =>
    have h1 : k (c :: pre ++ t) = none := hfail [] (c :: pre) rfl (by simp)
    have h2 : cls c = true := hcls c (by simp)
    have h3 : starLazy cls k (pre ++ t) = starLazy cls k t := by
      apply ih
      · intro x hx; exact hcls x (by simp [hx])
      · intro a b hab hb; exact hfail (c :: a) b (by simp [hab]) hb
    simp only [List.cons_append] at h1 ⊢
    simp [starLazy, h1, h2, h3]

theorem regexSearch_of_some (re : Regex) (s : Str) (r : MatchResult)
    (h : matchHere re s = some r) : regexSearch re s = some r := by
  cases s with
  | nil => simpa [regexSearch] using h
  | cons c s => simp [regexSearch, h]

/-- The search steps over a stretch of text on which the pattern fails at
every position. -/
theorem regexSearch_skip (re : Regex) (pre t : Str)
    (hfail : ∀ a b, pre = a ++ b → b ≠ [] → matchHere re (b ++ t) = none) :
    regexSearch re (pre ++ t) = regexSearch re t := by
  induction pre with
  | nil => simp
  | cons c pre ih =>
    have h1 : matchHere re (c :: pre ++ t) = none := hfail [] (c :: pre) rfl (by simp)
    have h3 : regexSearch re (pre ++ t) = regexSearch re t := by
      apply ih
      intro a b hab hb; exact hfail (c :: a) b (by simp [hab]) hb
    simp only [List.cons_append] at h1 ⊢
    simp [regexSearch, h1, h3]

/-! ### Inversion: what a successful match consumed -/

theorem starGreedy_some (cls : Char → Bool) (k : Str → Option MatchResult) (s : Str)
    (r : MatchResult) (h : starGreedy cls k s = some r) :
    ∃ g t, s = g ++ t ∧ (∀ c ∈ g, cls c = true) ∧ k t = some r := by
  induction s with
  | nil => exact ⟨[], [], rfl, by simp, by simpa [starGreedy] using h⟩
  | cons c s ih =>
    by_cases hc : cls c = true
    · simp only [starGreedy, hc, if_true] at h
      cases hs : starGreedy cls k s with
      | none => rw [hs] at h; exact ⟨[], c :: s, rfl, by simp, h⟩
      | some r' =>
        rw [hs] at h
        simp only [Option.some.injEq] at h
        subst h
        obtain ⟨g, t, e, hg, hk⟩ := ih hs
        refine ⟨c :: g, t, by simp [e], ?_, hk⟩
        intro x hx
        rcases List.mem_cons.1 hx with rfl | hx
        · exact hc
        · exact hg x hx
    · simp only [starGreedy, hc] at h
      exact ⟨[], c :: s, rfl, by simp, by simpa using h⟩

theorem starLazy_some (cls : Char → Bool) (k : Str → Option MatchResult) (s : Str)
    (r : MatchResult) (h : starLazy cls k s = some r) :
    ∃ g t, s = g ++ t ∧ (∀ c ∈ g, cls c = true) ∧ k t = some r := by
  induction s with
  | nil => exact ⟨[], [], rfl, by simp, by simpa [starLazy] using h⟩
  | cons c s ih =>
    cases hk : k (c :: s) with
    | some r' =>
      simp only [starLazy, hk] at h
      exact ⟨[], c :: s, rfl, by simp, by rw [hk]; exact h⟩
    | none =>
      simp only [starLazy, hk] at h
      by_cases hc : cls c = true
      · simp only [hc, if_true] at h
        obtain ⟨g, t, e, hg, hk'⟩ := ih h
        refine ⟨c :: g, t, by simp [e], ?_, hk'⟩
        intro x hx
        rcases List.mem_cons.1 hx with rfl | hx
        · exact hc
        · exact hg x hx
      · simp [hc] at h

theorem groupStar_some (cls : Char → Bool) (k : Str → Option MatchResult) (s g : Str)
    (r : MatchResult) (h : groupStar cls k s = some (g, r)) :
    ∃ t, s = g ++ t ∧ (∀ c ∈ g, cls c = true) ∧ k t = some r := by
  induction s generalizing g with
  | nil =>
    simp only [groupStar, Option.map_eq_some'] at h
    obtain ⟨r', hk, e⟩ := h
    simp only [Prod.mk.injEq] at e
    obtain ⟨rfl, rfl⟩ := e
    exact ⟨[], rfl, by simp, hk⟩
  | cons c s ih =>
    have stop : ((k (c :: s)).map fun r => (([] : Str), r)) = some (g, r) →
        ∃ t, c :: s = g ++ t ∧ (∀ c ∈ g, cls c = true) ∧ k t = some r := by
      intro h
      simp only [Option.map_eq_some'] at h
      obtain ⟨r', hk, e⟩ := h
      simp only [Prod.mk.injEq] at e
      obtain ⟨rfl, rfl⟩ := e
      exact ⟨c :: s, rfl, by simp, hk⟩
    by_cases hc : cls c = true
    · simp only [groupStar, hc, if_true] at h
      cases hs : groupStar cls k s with
      | none => rw [hs] at h; exact stop h
      | some p =>
        obtain ⟨g', r'⟩ := p
        rw [hs] at h
        simp only [Option.some.injEq, Prod.mk.injEq] at h
        obtain ⟨rfl, rfl⟩ := h
        obtain ⟨t, e, hg, hk⟩ := ih g' hs
        refine ⟨t, by simp [e], ?_, hk⟩
        intro x hx
        rcases List.mem_cons.1 hx with rfl | hx
        · exact hc
        · exact hg x hx
    · simp only [groupStar, hc] at h
      exact stop (by simpa using h)

theorem groupPlus_some (cls : Char → Bool) (k : Str → Option MatchResult) (s : Str)
    (r : MatchResult) (h : groupPlus cls k s = some r) :
    ∃ g t r', s = g ++ t ∧ g ≠ [] ∧ (∀ c ∈ g, cls c = true) ∧ k t = some r' ∧
      r = ⟨g :: r'.groups, r'.suffix⟩ := by
  cases s with
  | nil => simp [groupPlus] at h
  | cons c s =>
    by_cases hc : cls c = true
    · simp only [groupPlus, hc, if_true] at h
      cases hs : groupStar cls k s with
      | none => rw [hs] at h; simp at h
      | some p =>
        obtain ⟨g', r'⟩ := p
        rw [hs] at h
        simp only [Option.some.injEq] at h
        obtain ⟨t, e, hg, hk⟩ := groupStar_some cls k s g' r' hs
        refine ⟨c :: g', t, r', by simp [e], by simp, ?_, hk, h.symm⟩
        intro x hx
        rcases List.mem_cons.1 hx with rfl | hx
        · exact hc
        · exact hg x hx
    · simp [groupPlus, hc] at h

/-- A match consumes at least `minLen` characters, reports one sub-match per
capture group, and every sub-match is non-empty. -/
theorem matchHere_some (re : Regex) (s : Str) (r : MatchResult)
    (h : matchHere re s = some r) :
    r.suffix.length + minLen re ≤ s.length ∧ r.groups.length = numGroups re ∧
      ∀ g ∈ r.groups, g ≠ [] := by
  induction re generalizing s r with
  | nil =>
    simp only [matchHere, Option.some.injEq] at h
    subst h
    simp [minLen, numGroups]
  | cons it re ih =>
    cases it with
    | lit c =>
      cases s with
      | nil => simp [matchHere] at h
      | cons x s =>
        by_cases hx : x = c
        · simp only [matchHere, hx, if_true] at h
          obtain ⟨h1, h2, h3⟩ := ih s r h
          simp only [minLen, numGroups, List.length_cons]
          exact ⟨by omega, h2, h3⟩
        · simp [matchHere, hx] at h
    | star cls =>
      obtain ⟨g, t, e, _, hk⟩ := starGreedy_some cls _ s r h
      obtain ⟨h1, h2, h3⟩ := ih t r hk
      simp only [minLen, numGroups, e, List.length_append]
      exact ⟨by omega, h2, h3⟩
    | lazyStar cls =>
      obtain ⟨g, t, e, _, hk⟩ := starLazy_some cls _ s r h
      obtain ⟨h1, h2, h3⟩ := ih t r hk
      simp only [minLen, numGroups, e, List.length_append]
      exact ⟨by omega, h2, h3⟩
    | capPlus cls =>
      obtain ⟨g, t, r', e, hg, _, hk, er⟩ := groupPlus_some cls _ s r h
      have h3 := ih t r' hk
      have hl : 0 < g.length := List.length_pos.2 hg
      subst er
      refine ⟨?_, ?_, ?_⟩
      · simp only [minLen, e, List.length_append]; omega
      · simp only [numGroups, List.length_cons]; omega
      · intro x hx
        rcases List.mem_cons.1 hx with rfl | hx
        · exact hg
        · exact h3.2.2 x hx

theorem regexSearch_some (re : Regex) (s : Str) (r : MatchResult)
    (h : regexSearch re s = some r) :
    r.suffix.length + minLen re ≤ s.length ∧ r.groups.length = numGroups re ∧
      ∀ g ∈ r.groups, g ≠ [] := by
  induction s with
  | nil => exact matchHere_some re [] r (by simpa [regexSearch] using h)
  | cons c s ih =>
    cases hm : matchHere re (c :: s) with
    | some r' =>
      simp only [regexSearch, hm, Option.some.injEq] at h
      subst h
      exact matchHere_some re (c :: s) r' hm
    | none =>
      simp only [regexSearch, hm] at h
      obtain ⟨h1, h2, h3⟩ := ih h
      simp only [List.length_cons]
      exact ⟨by omega, h2, h3⟩

theorem installDivRegex_minLen : minLen installDivRegex = 71 := by decide

theorem installDivRegex_numGroups : numGroups installDivRegex = 3 := by decide

theorem codeBlockRegex_minLen : minLen codeBlockRegex = 28 := by decide

theorem codeBlockRegex_numGroups : numGroups codeBlockRegex = 2 := by decide

/-! ## The search loop -/

theorem searchAll_fuel (re : Regex) (hre : 0 < minLen re) (fuel fuel' : Nat) (s : Str)
    (h : s.length < fuel) (h' : s.length < fuel') :
    searchAll re fuel s = searchAll re fuel' s := by
  induction fuel generalizing fuel' s with
  | zero => omega
  | succ fuel ih =>
    cases fuel' with
    | zero => omega
    | succ fuel' =>
      simp only [searchAll]
      cases hm : regexSearch re s with
      | none => rfl
      | some m =>
        have hl := (regexSearch_some re s m hm).1
        simp only [List.cons.injEq, true_and]
        exact ih fuel' m.suffix (by omega) (by omega)

/-- One turn of the loop. -/
theorem matchesOf_eq (re : Regex) (hre : 0 < minLen re) (s : Str) :
    matchesOf re s =
      match regexSearch re s with
      | none => []
      | some m => m :: matchesOf re m.suffix := by
  simp only [matchesOf, searchAll]
  cases hm : regexSearch re s with
  | none => rfl
  | some m =>
    have hl := (regexSearch_some re s m hm).1
    simp only [List.cons.injEq, true_and]
    exact searchAll_fuel re hre s.length (m.suffix.length + 1) m.suffix (by omega) (by omega)

/-- The loop never runs out of the fuel `parseResponse` gives it: it ends
because the search fails, having run its body on each match in turn. -/
theorem searchLoop_eq (re : Regex) (hre : 0 < minLen re)
    (body : CommandInfo → MatchResult → CommandInfo) (fuel : Nat) (s : Str)
    (cmdInfo : CommandInfo) (h : s.length < fuel) :
    searchLoop re body fuel s cmdInfo = some ((searchAll re fuel s).foldl body cmdInfo) := by
  induction fuel generalizing s cmdInfo with
  | zero => omega
  | succ fuel ih =>
    simp only [searchLoop, searchAll]
    cases hm : regexSearch re s with
    | none => rfl
    | some m =>
      have hl := (regexSearch_some re s m hm).1
      simp only [List.foldl_cons]
      exact ih m.suffix _ (by omega)

theorem matchesOf_mem (re : Regex) (s : Str) (m : MatchResult)
    (h : m ∈ matchesOf re s) :
    m.groups.length = numGroups re ∧ ∀ g ∈ m.groups, g ≠ [] := by
  have key : ∀ fuel s, m ∈ searchAll re fuel s →
      m.groups.length = numGroups re ∧ ∀ g ∈ m.groups, g ≠ [] := by
    intro fuel
    induction fuel with
    | zero => intro s h; simp [searchAll] at h
    | succ fuel ih =>
      intro s h
      simp only [searchAll] at h
      cases hm : regexSearch re s with
      | none => rw [hm] at h; simp at h
      | some m' =>
        rw [hm] at h
        rcases List.mem_cons.1 h with rfl | h
        · exact (regexSearch_some re s m hm).2
        · exact ih _ h
  exact key _ _ h

/-! ## The map -/

theorem strLess_irrefl (a : Str) : strLess a a = false := by
  induction a with
  | nil => rfl
  | cons c a ih => simp [strLess, ih]

theorem strLess_trans (a b c : Str) (h1 : strLess a b = true) (h2 : strLess b c = true) :
    strLess a c = true := by
  induction a generalizing b c with
  | nil =>
    cases b with
    | nil => simp [strLess] at h1
    | cons y b =>
      cases c with
      | nil => simp [strLess] at h2
      | cons z c => simp [strLess]
  | cons x a ih =>
    cases b with
    | nil => simp [strLess] at h1
    | cons y b =>
      cases c with
      | nil => simp [strLess] at h2
      | cons z c =>
        simp only [strLess] at h1 h2 ⊢
        by_cases xy : x.toNat < y.toNat
        · by_cases yz : y.toNat < z.toNat
          · have : x.toNat < z.toNat := by omega
            simp [this]
          · by_cases zy : z.toNat < y.toNat
            · simp [yz, zy] at h2
            · have : x.toNat < z.toNat := by omega
              simp [this]
        · by_cases yx : y.toNat < x.toNat
          · simp [xy, yx] at h1
          · simp only [xy, yx, if_false] at h1
            by_cases yz : y.toNat < z.toNat
            · have : x.toNat < z.toNat := by omega
              simp [this]
            · by_cases zy : z.toNat < y.toNat
              · simp [yz, zy] at h2
              · simp only [yz, zy, if_false] at h2
                have n1 : ¬ x.toNat < z.toNat := by omega
                have n2 : ¬ z.toNat < x.toNat := by omega
                simp only [n1, n2, if_false]
                exact ih b c h1 h2

theorem strLess_connex (a b : Str) (h1 : strLess a b = false) (h2 : strLess b a = false) :
    a = b := by
  induction a generalizing b with
  | nil =>
    cases b with
    | nil => rfl
    | cons y b => simp [strLess] at h1
  | cons x a ih =>
    cases b with
    | nil => simp [strLess] at h2
    | cons y b =>
      simp only [strLess] at h1 h2
      by_cases xy : x.toNat < y.toNat
      · simp [xy] at h1
      · by_cases yx : y.toNat < x.toNat
        · simp [yx] at h2
        · simp only [xy, yx, if_false] at h1 h2
          have e : x.toNat = y.toNat := by omega
          have e' : x = y := by
            have := congrArg Char.ofNat e
            simpa using this
          rw [e', ih b h1 h2]

/-- Two keys are equivalent for `std::less` exactly when they are equal. -/
theorem equiv_iff (k k' : Str) : (!strLess k k' && !strLess k' k) = true ↔ k = k' := by
  constructor
  · intro h
    simp only [Bool.and_eq_true, Bool.not_eq_true'] at h
    exact strLess_connex k k' h.1 h.2
  · rintro rfl
    simp [strLess_irrefl]

theorem strLess_cases (k k' : Str) :
    strLess k k' = true ∨ (strLess k k' = false ∧ strLess k' k = true) ∨ k = k' := by
  cases c1 : strLess k k' with
  | true => exact Or.inl rfl
  | false =>
    cases c2 : strLess k' k with
    | true => exact Or.inr (Or.inl ⟨rfl, rfl⟩)
    | false => exact Or.inr (Or.inr (strLess_connex k k' c1 c2))

theorem mapAssign_cons_lt (m : List (Str × Str)) (k v k' v' : Str)
    (h : strLess k k' = true) :
    mapAssign ((k', v') :: m) k v = (k, v) :: (k', v') :: m := by
  simp [mapAssign, h]

theorem mapAssign_cons_gt (m : List (Str × Str)) (k v k' v' : Str)
    (h1 : strLess k k' = false) (h2 : strLess k' k = true) :
    mapAssign ((k', v') :: m) k v = (k', v') :: mapAssign m k v := by
  simp [mapAssign, h1, h2]

theorem mapAssign_cons_eq (m : List (Str × Str)) (k v v' : Str) :
    mapAssign ((k, v') :: m) k v = (k, v) :: m := by
  simp [mapAssign, strLess_irrefl]

theorem mapFind_cons_eq (m : List (Str × Str)) (k v' : Str) :
    mapFind ((k, v') :: m) k = some v' := by
  simp [mapFind, strLess_irrefl]

theorem mapFind_cons_ne (m : List (Str × Str)) (k k' v' : Str) (h : k ≠ k') :
    mapFind ((k', v') :: m) k = mapFind m k := by
  have := (equiv_iff k k').not.2 h
  simp only [mapFind]
  rw [if_neg this]

theorem mapFind_mapAssign (m : List (Str × Str)) (k v k'' : Str) :
    mapFind (mapAssign m k v) k'' = if k'' = k then some v else mapFind m k'' := by
  induction m with
  | nil =>
    by_cases e : k'' = k
    · subst e; simp [mapAssign, mapFind_cons_eq]
    · simp [mapAssign, mapFind_cons_ne _ _ _ _ e, e]
  | cons p m ih =>
    obtain ⟨k', v'⟩ := p
    rcases strLess_cases k k' with c1 | ⟨c1, c2⟩ | rfl
    · rw [mapAssign_cons_lt _ _ _ _ _ c1]
      by_cases e : k'' = k
      · subst e; simp [mapFind_cons_eq]
      · simp [mapFind_cons_ne _ _ _ _ e, e]
    · rw [mapAssign_cons_gt _ _ _ _ _ c1 c2]
      by_cases e : k'' = k
      · subst e
        have ne : k'' ≠ k' := by
          rintro rfl; simp [strLess_irrefl] at c2
        rw [mapFind_cons_ne _ _ _ _ ne, ih]; simp
      · by_cases e' : k'' = k'
        · subst e'; simp [mapFind_cons_eq, e]
        · rw [mapFind_cons_ne _ _ _ _ e', mapFind_cons_ne _ _ _ _ e', ih]
    · rw [mapAssign_cons_eq]
      by_cases e : k'' = k
      · subst e; simp [mapFind_cons_eq]
      · simp [mapFind_cons_ne _ _ _ _ e, e]

theorem mem_mapAssign (m : List (Str × Str)) (k v : Str) (p : Str × Str)
    (h : p ∈ mapAssign m k v) : p = (k, v) ∨ p ∈ m := by
  induction m with
  | nil => simpa [mapAssign] using h
  | cons q m ih =>
    obtain ⟨k', v'⟩ := q
    rcases strLess_cases k k' with c1 | ⟨c1, c2⟩ | rfl
    · rw [mapAssign_cons_lt _ _ _ _ _ c1] at h
      simpa using h
    · rw [mapAssign_cons_gt _ _ _ _ _ c1 c2] at h
      rcases List.mem_cons.1 h with h | h
      · right; simp [h]
      · rcases ih h with h | h
        · left; exact h
        · right; simp [h]
    · rw [mapAssign_cons_eq] at h
      rcases List.mem_cons.1 h with h | h
      · left; exact h
      · right; simp [h]

theorem keys_mapAssign (m : List (Str × Str)) (k v k'' : Str) :
    k'' ∈ (mapAssign m k v).map Prod.fst ↔ k'' = k ∨ k'' ∈ m.map Prod.fst := by
  induction m with
  | nil => simp [mapAssign]
  | cons q m ih =>
    obtain ⟨k', v'⟩ := q
    rcases strLess_cases k k' with c1 | ⟨c1, c2⟩ | rfl
    · rw [mapAssign_cons_lt _ _ _ _ _ c1]; simp
    · rw [mapAssign_cons_gt _ _ _ _ _ c1 c2]
      simp only [List.map_cons, List.mem_cons, ih]
      tauto
    · rw [mapAssign_cons_eq]; simp

theorem keysAscending_mapAssign (m : List (Str × Str)) (k v : Str) (h : KeysAscending m) :
    KeysAscending (mapAssign m k v) := by
  induction m with
  | nil => simp [mapAssign, KeysAscending]
  | cons q m ih =>
    obtain ⟨k', v'⟩ := q
    simp only [KeysAscending, List.map_cons, List.pairwise_cons] at h
    obtain ⟨h1, h2⟩ := h
    rcases strLess_cases k k' with c1 | ⟨c1, c2⟩ | rfl
    · rw [mapAssign_cons_lt _ _ _ _ _ c1]
      simp only [KeysAscending, List.map_cons, List.pairwise_cons]
      refine ⟨?_, h1, h2⟩
      intro a ha
      rcases List.mem_cons.1 ha with rfl | ha
      · exact c1
      · exact strLess_trans _ _ _ c1 (h1 a ha)
    · rw [mapAssign_cons_gt _ _ _ _ _ c1 c2]
      simp only [KeysAscending, List.map_cons, List.pairwise_cons]
      refine ⟨?_, ih h2⟩
      intro a ha
      rcases (keys_mapAssign m k v a).1 ha with rfl | ha
      · exact c2
      · exact h1 a ha
    · rw [mapAssign_cons_eq]
      simp only [KeysAscending, List.map_cons, List.pairwise_cons]
      exact ⟨h1, h2⟩

theorem mapFind_isSome (m : List (Str × Str)) (k : Str) :
    (mapFind m k).isSome = true ↔ k ∈ m.map Prod.fst := by
  induction m with
  | nil => simp [mapFind]
  | cons q m ih =>
    obtain ⟨k', v'⟩ := q
    by_cases e : k = k'
    · subst e; simp [mapFind_cons_eq]
    · rw [mapFind_cons_ne _ _ _ _ e, ih]
      simp [e]

theorem mapAssign_ne_nil (m : List (Str × Str)) (k v : Str) : mapAssign m k v ≠ [] := by
  cases m with
  | nil => simp [mapAssign]
  | cons q m =>
    obtain ⟨k', v'⟩ := q
    rcases strLess_cases k k' with c1 | ⟨c1, c2⟩ | rfl
    · rw [mapAssign_cons_lt _ _ _ _ _ c1]; simp
    · rw [mapAssign_cons_gt _ _ _ _ _ c1 c2]; simp
    · rw [mapAssign_cons_eq]; simp

/-! ## Records reached by calls of `addDistroCommand` -/

theorem addAll_append (cmdInfo : CommandInfo) (ops : List (Str × Str)) (p : Str × Str) :
    addAll cmdInfo (ops ++ [p]) = (addAll cmdInfo ops).addDistroCommand p.1 p.2 := by
  simp [addAll, List.foldl_append]

theorem addAll_name (cmdInfo : CommandInfo) (ops : List (Str × Str)) :
    (addAll cmdInfo ops).name = cmdInfo.name := by
  induction ops using List.reverseRecOn with
  | nil => rfl
  | append_singleton ops p ih => rw [addAll_append]; exact ih

theorem addAll_find (cmdInfo : CommandInfo) (ops : List (Str × Str)) (k : Str) :
    mapFind (addAll cmdInfo ops).installCommands k =
      (((ops.filter fun p => decide (p.1 = k)).getLast?).map Prod.snd).or
        (mapFind cmdInfo.installCommands k) := by
  induction ops using List.reverseRecOn with
  | nil => simp [addAll]
  | append_singleton ops p ih =>
    rw [addAll_append]
    simp only [CommandInfo.addDistroCommand, mapFind_mapAssign, ih, List.filter_append,
      List.getLast?_append]
    by_cases e : k = p.1
    · subst e; simp [List.filter]
    · have e' : ¬ p.1 = k := fun h => e h.symm
      simp [List.filter, e, e']

theorem addAll_keys (cmdInfo : CommandInfo) (ops : List (Str × Str)) (k : Str) :
    k ∈ (addAll cmdInfo ops).getSupportedDistros ↔
      k ∈ ops.map Prod.fst ∨ k ∈ cmdInfo.getSupportedDistros := by
  induction ops using List.reverseRecOn with
  | nil => simp [addAll]
  | append_singleton ops p ih =>
    rw [addAll_append]
    simp only [CommandInfo.getSupportedDistros, CommandInfo.addDistroCommand, keys_mapAssign,
      List.map_append, List.mem_append, List.map_cons, List.map_nil, List.mem_singleton] at ih ⊢
    rw [ih]; tauto

theorem addAll_ascending (cmdInfo : CommandInfo) (ops : List (Str × Str))
    (h : KeysAscending cmdInfo.installCommands) :
    KeysAscending (addAll cmdInfo ops).installCommands := by
  induction ops using List.reverseRecOn with
  | nil => exact h
  | append_singleton ops p ih =>
    rw [addAll_append]
    exact keysAscending_mapAssign _ _ _ ih

theorem addAll_mem (cmdInfo : CommandInfo) (ops : List (Str × Str)) (p : Str × Str)
    (h : p ∈ (addAll cmdInfo ops).installCommands) :
    p ∈ ops ∨ p ∈ cmdInfo.installCommands := by
  induction ops using List.reverseRecOn with
  | nil => exact Or.inr h
  | append_singleton ops q ih =>
    rw [addAll_append] at h
    rcases mem_mapAssign _ _ _ _ h with h | h
    · left; simp [h]
    · rcases ih h with h | h
      · left; simp [h]
      · right; exact h

theorem addAll_ne_nil (cmdInfo : CommandInfo) (ops : List (Str × Str)) (h : ops ≠ []) :
    (addAll cmdInfo ops).installCommands ≠ [] := by
  induction ops using List.reverseRecOn with
  | nil => exact absurd rfl h
  | append_singleton ops q _ =>
    rw [addAll_append]
    exact mapAssign_ne_nil _ _ _

/-- Strictly ascending lists with the same members are the same list. -/
theorem ascending_ext (l₁ l₂ : List Str)
    (h₁ : l₁.Pairwise fun a b => strLess a b = true)
    (h₂ : l₂.Pairwise fun a b => strLess a b = true)
    (h : ∀ k, k ∈ l₁ ↔ k ∈ l₂) : l₁ = l₂ := by
  haveI : IsIrrefl Str (fun a b => strLess a b = true) :=
    ⟨fun a h => by simp [strLess_irrefl] at h⟩
  haveI : IsAntisymm Str (fun a b => strLess a b = true) :=
    ⟨fun a b hab hba => by
      have := strLess_trans a b a hab hba
      simp [strLess_irrefl] at this⟩
  have p : l₁.Perm l₂ := (List.perm_ext_iff_of_nodup h₁.nodup h₂.nodup).2 h
  exact List.eq_of_perm_of_sorted p h₁ h₂

/-! ## Settled claims on the record -/

/-- C7. On the record reached from `CommandInfo(name)` by any sequence `ops` of
`addDistroCommand` calls: for a key that was never added `getCommand`
returns the string "No installation command found for this distribution"
and `hasDistro` is false; for a key that was added `hasDistro` is true and
`getCommand` returns the stored command, the one of the last call with that
key. -/
theorem absence_sentinel (name : Str) (ops : List (Str × Str)) (key : Str) :
    (key ∉ ops.map Prod.fst →
      (addAll (CommandInfo.new name) ops).getCommand key =
          "No installation command found for this distribution".toList ∧
        (addAll (CommandInfo.new name) ops).hasDistro key = false) ∧
    (key ∈ ops.map Prod.fst →
      (addAll (CommandInfo.new name) ops).hasDistro key = true ∧
        ∃ p, (ops.filter fun p => decide (p.1 = key)).getLast? = some p ∧
          (addAll (CommandInfo.new name) ops).getCommand key = p.2) := by
  have hf := addAll_find (CommandInfo.new name) ops key
  simp only [CommandInfo.new, mapFind, Option.or_none] at hf
  constructor
  · intro hk
    have : (ops.filter fun p => decide (p.1 = key)) = [] := by
      rw [List.filter_eq_nil_iff]
      intro p hp e
      simp only [decide_eq_true_eq] at e
      exact hk (List.mem_map.2 ⟨p, hp, e⟩)
    rw [this] at hf
    simp only [List.getLast?_nil, Option.map_none'] at hf
    simp only [CommandInfo.getCommand, CommandInfo.hasDistro, CommandInfo.new, hf]
    exact ⟨rfl, rfl⟩
  · intro hk
    obtain ⟨q, hq, e⟩ := List.mem_map.1 hk
    have ne : (ops.filter fun p => decide (p.1 = key)) ≠ [] := by
      intro h
      rw [List.filter_eq_nil_iff] at h
      exact h q hq (by simpa using e)
    cases hl : (ops.filter fun p => decide (p.1 = key)).getLast? with
    | none => exact absurd (List.getLast?_eq_none_iff.1 hl) ne
    | some p =>
      rw [hl] at hf
      simp only [Option.map_some'] at hf
      simp only [CommandInfo.getCommand, CommandInfo.hasDistro, CommandInfo.new, hf]
      exact ⟨rfl, p, rfl, rfl⟩

/-- C10. On the record reached from `CommandInfo(name)` by any sequence `ops` of
`addDistroCommand` calls, `getSupportedDistros()` is strictly ascending for
the byte-wise lexicographic order, repeats no key, holds exactly the keys
that were added, and is the same for every other sequence of calls that adds
the same keys (in particular for every reordering of `ops`). -/
theorem keys_ascending_unique (name : Str) (ops : List (Str × Str)) :
    ((addAll (CommandInfo.new name) ops).getSupportedDistros.Pairwise
        fun a b => strLess a b = true) ∧
    (addAll (CommandInfo.new name) ops).getSupportedDistros.Nodup ∧
    (∀ k, k ∈ (addAll (CommandInfo.new name) ops).getSupportedDistros ↔
      k ∈ ops.map Prod.fst) ∧
    ∀ name' ops', (∀ k, k ∈ ops'.map Prod.fst ↔ k ∈ ops.map Prod.fst) →
      (addAll (CommandInfo.new name') ops').getSupportedDistros =
        (addAll (CommandInfo.new name) ops).getSupportedDistros := by
  have asc : ∀ n o, (addAll (CommandInfo.new n) o).getSupportedDistros.Pairwise
      fun a b => strLess a b = true := by
    intro n o
    exact addAll_ascending (CommandInfo.new n) o (by simp [KeysAscending, CommandInfo.new])
  have keys : ∀ n o k, k ∈ (addAll (CommandInfo.new n) o).getSupportedDistros ↔
      k ∈ o.map Prod.fst := by
    intro n o k
    rw [addAll_keys]
    simp [CommandInfo.new, CommandInfo.getSupportedDistros]
  haveI : IsIrrefl Str (fun a b => strLess a b = true) :=
    ⟨fun a h => by simp [strLess_irrefl] at h⟩
  refine ⟨asc name ops, (asc name ops).nodup, keys name ops, ?_⟩
  intro name' ops' h
  apply ascending_ext _ _ (asc name' ops') (asc name ops)
  intro k
  rw [keys, keys, h]

/-! ## `parseResponse` as a fold over the matches -/

theorem foldl_primaryBody (cmdInfo : CommandInfo) (ms : List MatchResult) :
    ms.foldl primaryBody cmdInfo = addAll cmdInfo (ms.map primaryEntry) := by
  simp only [addAll, List.foldl_map]
  rfl

theorem foldl_fallbackBody (cmdInfo : CommandInfo) (ms : List MatchResult) :
    ms.foldl fallbackBody cmdInfo = addAll cmdInfo (ms.map fallbackEntry) := by
  simp only [addAll, List.foldl_map]
  rfl

theorem primaryMatches_eq (response : Str) :
    primaryMatches response = matchesOf installDivRegex response := rfl

theorem fallbackMatches_eq (response : Str) :
    fallbackMatches response = matchesOf codeBlockRegex response := rfl

/-- The method `parseResponse` always returns: the record of the primary matches when
there is one, that of the fallback matches otherwise. -/
theorem parseResponse_eq (response name : Str) :
    parseResponse response name = some
      (if primaryMatches response = [] then
        (fallbackMatches response).foldl fallbackBody (CommandInfo.new name)
      else (primaryMatches response).foldl primaryBody (CommandInfo.new name)) := by
  have h1 := searchLoop_eq installDivRegex (by decide) primaryBody (response.length + 1)
    response (CommandInfo.new name) (by omega)
  simp only [parseResponse, h1]
  by_cases hm : primaryMatches response = []
  · have hm' : searchAll installDivRegex (response.length + 1) response = [] := hm
    simp only [hm, hm', if_true, List.foldl_nil]
    have : (CommandInfo.new name).getSupportedDistros.isEmpty = true := rfl
    rw [if_pos this]
    exact searchLoop_eq codeBlockRegex (by decide) fallbackBody (response.length + 1)
      response (CommandInfo.new name) (by omega)
  · simp only [hm, if_false]
    have hne : ((primaryMatches response).foldl primaryBody
        (CommandInfo.new name)).installCommands ≠ [] := by
      rw [foldl_primaryBody]
      exact addAll_ne_nil _ _ (by simpa using hm)
    have : (List.foldl primaryBody (CommandInfo.new name)
        (searchAll installDivRegex (response.length + 1) response)).getSupportedDistros.isEmpty
          = false := by
      simp only [CommandInfo.getSupportedDistros, List.isEmpty_eq_false, ne_eq,
        List.map_eq_nil_iff]
      exact hne
    rw [this]
    rfl

theorem primaryKey_ne_nil (t : Str) (h : t ≠ []) : primaryKey t ≠ [] := by
  simp only [primaryKey]
  split_ifs <;> first | exact h | decide

theorem fallbackKey_ne_nil (t : Str) (h : t ≠ []) : fallbackKey t ≠ [] := by
  simp only [fallbackKey]
  split_ifs <;> simp [h]

theorem primaryMatches_groups (response : Str) (m : MatchResult)
    (h : m ∈ primaryMatches response) :
    m.group 1 ≠ [] ∧ m.group 3 ≠ [] := by
  obtain ⟨hl, hg⟩ := matchesOf_mem installDivRegex response m h
  rw [installDivRegex_numGroups] at hl
  match hgs : m.groups, hl with
  | [a, b, c], _ =>
    rw [hgs] at hg
    simp only [MatchResult.group, hgs]
    exact ⟨hg a (by simp), hg c (by simp)⟩

theorem fallbackMatches_groups (response : Str) (m : MatchResult)
    (h : m ∈ fallbackMatches response) :
    m.group 1 ≠ [] ∧ m.group 2 ≠ [] := by
  obtain ⟨hl, hg⟩ := matchesOf_mem codeBlockRegex response m h
  rw [codeBlockRegex_numGroups] at hl
  match hgs : m.groups, hl with
  | [a, b], _ =>
    rw [hgs] at hg
    simp only [MatchResult.group, hgs]
    exact ⟨hg a (by simp), hg b (by simp)⟩

theorem fallback_activation_aux (response name : Str) (h : primaryMatches response ≠ []) :
    parseResponse response name =
      some ((primaryMatches response).foldl primaryBody (CommandInfo.new name)) := by
  rw [parseResponse_eq, if_neg h]

theorem keys_ascending_aux (name : Str) (ops : List (Str × Str)) :
    (addAll (CommandInfo.new name) ops).getSupportedDistros.Nodup := by
  haveI : IsIrrefl Str (fun a b => strLess a b = true) :=
    ⟨fun a h => by simp [strLess_irrefl] at h⟩
  have : (addAll (CommandInfo.new name) ops).getSupportedDistros.Pairwise
      fun a b => strLess a b = true :=
    addAll_ascending (CommandInfo.new name) ops (by simp [KeysAscending, CommandInfo.new])
  exact this.nodup

theorem filter_eq_length_one (l : List Str) (key : Str) (hnd : l.Nodup) (hmem : key ∈ l) :
    (l.filter fun k => decide (k = key)).length = 1 := by
  induction l with
  | nil => simp at hmem
  | cons a l ih =>
    rw [List.nodup_cons] at hnd
    by_cases e : a = key
    · subst e
      have : (l.filter fun k => decide (k = a)) = [] := by
        rw [List.filter_eq_nil_iff]
        intro x hx hxa
        simp only [decide_eq_true_eq] at hxa
        subst hxa
        exact hnd.1 hx
      simp [List.filter, this]
    · have hm : key ∈ l := by
        rcases List.mem_cons.1 hmem with h | h
        · exact absurd h.symm e
        · exact h
      simp [List.filter, e, ih hnd.2 hm]

/-! ## Settled claims on `parseResponse` -/

/-- C5. When the primary strategy yields at least one match, the record
`parseResponse` returns is exactly the record built from the primary matches
alone (no `<dt>/<dd>/<code>` triple adds an entry); the matches of the
fallback scan are stored only when the primary strategy yields none. -/
theorem fallback_activation (response name : Str) :
    (primaryMatches response ≠ [] →
      parseResponse response name =
        some ((primaryMatches response).foldl primaryBody (CommandInfo.new name))) ∧
    (primaryMatches response = [] →
      parseResponse response name =
        some ((fallbackMatches response).foldl fallbackBody (CommandInfo.new name))) := by
  constructor
  · intro h; rw [parseResponse_eq, if_neg h]
  · intro h; rw [parseResponse_eq, if_pos h]

/-- C8. `parseResponse` on the empty response returns the record with no
entries; `parseResponse` returns a record for every response; and when
neither pattern matches anywhere in the response that record has no
entries. -/
theorem empty_input_never_fails (name : Str) :
    parseResponse [] name = some (CommandInfo.new name) ∧
    (CommandInfo.new name).getSupportedDistros = [] ∧
    (∀ response, ∃ cmdInfo, parseResponse response name = some cmdInfo) ∧
    (∀ response, regexSearch installDivRegex response = none →
      regexSearch codeBlockRegex response = none →
      parseResponse response name = some (CommandInfo.new name)) := by
  have key : ∀ response, regexSearch installDivRegex response = none →
      regexSearch codeBlockRegex response = none →
      parseResponse response name = some (CommandInfo.new name) := by
    intro response h1 h2
    have e1 : primaryMatches response = [] := by
      simp [primaryMatches, searchAll, h1]
    have e2 : fallbackMatches response = [] := by
      simp [fallbackMatches, searchAll, h2]
    rw [parseResponse_eq, if_pos e1, e2]
    rfl
  refine ⟨key [] (by decide) (by decide), rfl, ?_, key⟩
  intro response
  exact ⟨_, parseResponse_eq response name⟩

/-- C9. For every response and name `parseResponse` returns a record in which
every key is a non-empty string, every command is a non-empty string, and
`getName()` is the name that was passed. -/
theorem record_invariant (response name : Str) :
    ∃ cmdInfo, parseResponse response name = some cmdInfo ∧
      (∀ p ∈ cmdInfo.installCommands, p.1 ≠ [] ∧ p.2 ≠ []) ∧
      cmdInfo.getName = name := by
  refine ⟨_, parseResponse_eq response name, ?_, ?_⟩
  · intro p hp
    split_ifs at hp with hm
    · rw [foldl_fallbackBody] at hp
      rcases addAll_mem _ _ _ hp with hp | hp
      · obtain ⟨m, hm, rfl⟩ := List.mem_map.1 hp
        obtain ⟨g1, g2⟩ := fallbackMatches_groups response m hm
        exact ⟨fallbackKey_ne_nil _ g1, g2⟩
      · simp [CommandInfo.new] at hp
    · rw [foldl_primaryBody] at hp
      rcases addAll_mem _ _ _ hp with hp | hp
      · obtain ⟨m, hm, rfl⟩ := List.mem_map.1 hp
        obtain ⟨g1, g3⟩ := primaryMatches_groups response m hm
        exact ⟨primaryKey_ne_nil _ g1, g3⟩
      · simp [CommandInfo.new] at hp
  · split_ifs
    · rw [foldl_fallbackBody]; exact addAll_name _ _
    · rw [foldl_primaryBody]; exact addAll_name _ _

/-- C2. When at least one primary match (in particular two or more) has a raw
tag that normalizes to `key`, the record `parseResponse` returns holds under
`key` the `<code>` text of the last such match in document order, and `key`
occurs exactly once among its keys. -/
theorem later_match_wins (response name key : Str)
    (h : (primaryMatches response).filter (fun m => decide (primaryKey (m.group 1) = key))
      ≠ []) :
    ∃ cmdInfo last, parseResponse response name = some cmdInfo ∧
      ((primaryMatches response).filter
        fun m => decide (primaryKey (m.group 1) = key)).getLast? = some last ∧
      cmdInfo.getCommand key = last.group 3 ∧
      (cmdInfo.getSupportedDistros.filter fun k => decide (k = key)).length = 1 := by
  have hne : primaryMatches response ≠ [] := by
    intro e; rw [e] at h; simp at h
  cases hl : ((primaryMatches response).filter
      fun m => decide (primaryKey (m.group 1) = key)).getLast? with
  | none => exact absurd (List.getLast?_eq_none_iff.1 hl) h
  | some last =>
    refine ⟨_, last, (fallback_activation_aux response name hne), rfl, ?_, ?_⟩
    · have hf := addAll_find (CommandInfo.new name)
        ((primaryMatches response).map primaryEntry) key
      rw [List.filter_map, List.getLast?_map] at hf
      have e : ((fun p : Str × Str => decide (p.1 = key)) ∘ primaryEntry) =
          fun m => decide (primaryKey (m.group 1) = key) := rfl
      rw [e, hl] at hf
      simp only [Option.map_some', Option.or] at hf
      simp only [foldl_primaryBody, CommandInfo.getCommand, hf]
      rfl
    · have hmem : key ∈ ((primaryMatches response).foldl primaryBody
          (CommandInfo.new name)).getSupportedDistros := by
        rw [foldl_primaryBody, addAll_keys]
        left
        have hlm := List.mem_of_getLast?_eq_some hl
        rw [List.mem_filter] at hlm
        exact List.mem_map.2 ⟨primaryEntry last, List.mem_map.2 ⟨last, hlm.1, rfl⟩,
          by simpa [primaryEntry] using hlm.2⟩
      have hnd : ((primaryMatches response).foldl primaryBody
          (CommandInfo.new name)).getSupportedDistros.Nodup := by
        rw [foldl_primaryBody]
        exact (keys_ascending_aux name _)
      exact filter_eq_length_one _ key hnd hmem

/-! ## The primary pattern on a well-formed block -/

theorem installDivRegex_eq :
    installDivRegex = divOpen.map Item.lit ++
      (Item.capPlus notQuote :: (dataOs.map Item.lit ++
        (Item.capPlus notQuote :: (tagEnd.map Item.lit ++
          (Item.lazyStar anyChar :: codeTail))))) := rfl

theorem matchHere_lits_exact (cs s : Str) :
    matchHere (cs.map Item.lit) (cs ++ s) = some ⟨[], s⟩ := by
  have := matchHere_lits_append cs [] s
  simpa [matchHere] using this

theorem takeWhile_run (cls : Char → Bool) (g t : Str) (hg : ∀ c ∈ g, cls c = true)
    (ht : t.takeWhile cls = []) :
    (g ++ t).takeWhile cls = g ∧ (g ++ t).dropWhile cls = t := by
  induction g with
  | nil =>
    refine ⟨ht, ?_⟩
    cases t with
    | nil => rfl
    | cons x t =>
      by_cases hx : cls x = true
      · simp [List.takeWhile, hx] at ht
      · simp [List.dropWhile, hx]
  | cons c g ih =>
    have hc : cls c = true := hg c (by simp)
    have := ih (fun x hx => hg x (by simp [hx]))
    simp [List.takeWhile, List.dropWhile, hc, this]

/-- A capture group on a run `g` of class characters that ends where the
continuation, which cannot start inside the class, takes over. -/
theorem groupPlus_run (cls : Char → Bool) (k : Str → Option MatchResult) (g t : Str)
    (hk : Rejects cls k) (hg : ∀ c ∈ g, cls c = true) (hne : g ≠ [])
    (ht : t.takeWhile cls = []) :
    groupPlus cls k (g ++ t) = (k t).map fun r => ⟨g :: r.groups, r.suffix⟩ := by
  obtain ⟨h1, h2⟩ := takeWhile_run cls g t hg ht
  rw [groupPlus_eq cls k hk, h1, h2, if_neg hne]

theorem rejects_lits (cls : Char → Bool) (q : Char) (cs : Str) (re : Regex)
    (hq : cls q = false) : Rejects cls (matchHere ((q :: cs).map Item.lit ++ re)) :=
  rejects_lit cls q _ hq

theorem notQuote_of_not_mem (g : Str) (h : '"' ∉ g) : ∀ c ∈ g, notQuote c = true := by
  intro c hc
  simp only [notQuote, bne_iff_ne, ne_eq]
  rintro rfl
  exact h hc

theorem notLt_of_not_mem (g : Str) (h : '<' ∉ g) : ∀ c ∈ g, notLt c = true := by
  intro c hc
  simp only [notLt, bne_iff_ne, ne_eq]
  rintro rfl
  exact h hc

theorem matchHere_capPlus (cls : Char → Bool) (re : Regex) (s : Str) :
    matchHere (Item.capPlus cls :: re) s = groupPlus cls (matchHere re) s := rfl

theorem matchHere_lazyStar (cls : Char → Bool) (re : Regex) (s : Str) :
    matchHere (Item.lazyStar cls :: re) s = starLazy cls (matchHere re) s := rfl

theorem matchHere_star (cls : Char → Bool) (re : Regex) (s : Str) :
    matchHere (Item.star cls :: re) s = starGreedy cls (matchHere re) s := rfl

/-- From `<code>` on: a non-empty text without `<` between `<code>` and
`</code>` is captured, and the lazy scan for `</div>` follows. -/
theorem codeTail_match (command post : Str) (hne : command ≠ []) (hlt : '<' ∉ command) :
    matchHere codeTail (codeOpen ++ (command ++ (codeClose ++ post))) =
      (starLazy anyChar (matchHere (divClose.map Item.lit)) post).map
        fun r => ⟨command :: r.groups, r.suffix⟩ := by
  have hk : Rejects notLt (matchHere (codeClose.map Item.lit ++
      (Item.lazyStar anyChar :: divClose.map Item.lit))) :=
    rejects_lits notLt '<' "/code>".toList _ rfl
  rw [codeTail, matchHere_lits_append, matchHere_capPlus,
    groupPlus_run notLt _ command (codeClose ++ post) hk (notLt_of_not_mem _ hlt) hne rfl,
    matchHere_lits_append, matchHere_lazyStar]

/-- From the start of the opening tag to the start of the div body: the two
attribute values are captured, and the lazy scan for `<code>` follows. -/
theorem openTag_match (distro os body : Str) (hd : distro ≠ []) (hdq : '"' ∉ distro)
    (ho : os ≠ []) (hoq : '"' ∉ os) :
    matchHere installDivRegex (divOpen ++ (distro ++ (dataOs ++ (os ++ (tagEnd ++ body))))) =
      (starLazy anyChar (matchHere codeTail) body).map
        fun r => ⟨distro :: os :: r.groups, r.suffix⟩ := by
  have hk1 : Rejects notQuote (matchHere (dataOs.map Item.lit ++
      (Item.capPlus notQuote :: (tagEnd.map Item.lit ++
        (Item.lazyStar anyChar :: codeTail))))) :=
    rejects_lits notQuote '"' " data-os=\"".toList _ rfl
  have hk2 : Rejects notQuote (matchHere (tagEnd.map Item.lit ++
      (Item.lazyStar anyChar :: codeTail))) :=
    rejects_lits notQuote '"' ">".toList _ rfl
  rw [installDivRegex_eq, matchHere_lits_append, matchHere_capPlus,
    groupPlus_run notQuote _ distro (dataOs ++ (os ++ (tagEnd ++ body))) hk1
      (notQuote_of_not_mem _ hdq) hd rfl,
    matchHere_lits_append, matchHere_capPlus,
    groupPlus_run notQuote _ os (tagEnd ++ body) hk2 (notQuote_of_not_mem _ hoq) ho rfl,
    matchHere_lits_append, matchHere_lazyStar, Option.map_map]
  rfl

/-! ## Documents made of well-formed blocks -/

theorem block_match (b : Block) (rest : Str) (h : b.WellFormed) :
    matchHere installDivRegex (b.html ++ rest) =
      some ⟨[b.distro, b.os, b.command], rest⟩ := by
  obtain ⟨hd, hdq, ho, hoq, hc, hcl⟩ := h
  have e : b.html ++ rest = divOpen ++ (b.distro ++ (dataOs ++ (b.os ++ (tagEnd ++
      (codeOpen ++ (b.command ++ (codeClose ++ (divClose ++ rest)))))))) := by
    simp [Block.html, List.append_assoc]
  have h3 : starLazy anyChar (matchHere (divClose.map Item.lit)) (divClose ++ rest) =
      some ⟨[], rest⟩ :=
    starLazy_of_some _ _ _ _ (matchHere_lits_exact divClose rest)
  have h2 := codeTail_match b.command (divClose ++ rest) hc hcl
  rw [h3] at h2
  rw [e, openTag_match _ _ _ hd hdq ho hoq, starLazy_of_some _ _ _ _ h2]
  rfl

theorem installDivRegex_head (x : Char) (s : Str) (h : x ≠ '<') :
    matchHere installDivRegex (x :: s) = none :=
  matchHere_lit_ne '<' x _ s h

theorem installDivRegex_skip (sep t : Str) (h : '<' ∉ sep) :
    regexSearch installDivRegex (sep ++ t) = regexSearch installDivRegex t := by
  apply regexSearch_skip
  intro a b hab hb
  cases b with
  | nil => exact absurd rfl hb
  | cons x b =>
    apply installDivRegex_head
    rintro rfl
    exact h (by simp [hab])

theorem installDivRegex_none (sep : Str) (h : '<' ∉ sep) :
    regexSearch installDivRegex sep = none := by
  have := installDivRegex_skip sep [] h
  simp only [List.append_nil] at this
  rw [this]
  rfl

theorem block_search (sep : Str) (b : Block) (rest : Str) (hs : '<' ∉ sep)
    (h : b.WellFormed) :
    regexSearch installDivRegex (sep ++ (b.html ++ rest)) =
      some ⟨[b.distro, b.os, b.command], rest⟩ := by
  rw [installDivRegex_skip _ _ hs]
  exact regexSearch_of_some _ _ _ (block_match b rest h)

/-- The primary matches of a document of well-formed blocks separated by
text without `<` are its blocks, in order. -/
theorem document_entries (lead : Str) (blocks : List (Block × Str)) (hl : '<' ∉ lead)
    (hb : ∀ p ∈ blocks, p.1.WellFormed ∧ '<' ∉ p.2) :
    (primaryMatches (document lead blocks)).map primaryEntry =
      blocks.map fun p => (primaryKey p.1.distro, p.1.command) := by
  induction blocks generalizing lead with
  | nil =>
    rw [primaryMatches_eq, matchesOf_eq _ (by decide)]
    simp [document, installDivRegex_none lead hl]
  | cons p blocks ih =>
    obtain ⟨b, sep⟩ := p
    obtain ⟨hw, hs⟩ := hb (b, sep) (by simp)
    rw [primaryMatches_eq, matchesOf_eq _ (by decide)]
    simp only [document, block_search lead b _ hl hw, List.map_cons]
    rw [← primaryMatches_eq, ih sep hs (fun q hq => hb q (by simp [hq]))]
    rfl

theorem isSpace_ne_lt (sep : Str) (h : ∀ c ∈ sep, isSpace c = true) : '<' ∉ sep := by
  intro hm
  have := h _ hm
  revert this
  decide

/-- Every op of a sequence with pairwise distinct keys is found under its key. -/
theorem addAll_find_nodup (cmdInfo : CommandInfo) (ops : List (Str × Str))
    (hnd : (ops.map Prod.fst).Nodup) (p : Str × Str) (hp : p ∈ ops) :
    mapFind (addAll cmdInfo ops).installCommands p.1 = some p.2 := by
  induction ops using List.reverseRecOn with
  | nil => simp at hp
  | append_singleton ops q ih =>
    rw [addAll_append]
    simp only [CommandInfo.addDistroCommand, mapFind_mapAssign]
    rw [List.map_append, List.nodup_append] at hnd
    obtain ⟨hn1, _, hdisj⟩ := hnd
    rcases List.mem_append.1 hp with hp | hp
    · have : p.1 ≠ q.1 := by
        intro e
        exact hdisj (List.mem_map.2 ⟨p, hp, rfl⟩) (by simp [e])
      rw [if_neg this]
      exact ih hn1 hp
    · simp only [List.mem_singleton] at hp
      subst hp
      simp

/-- C1. For a document made of N ≥ 1 well-formed blocks
`<div class="command-install install-D" data-os="O"><code>C</code></div>`
(D and O non-empty without `"`, which covers lowercase identifiers; C
non-empty without `<`), with optional whitespace before, between and after
them, whose normalized keys are pairwise distinct, `parseResponse` returns a
record whose keys are exactly the normalized keys of the blocks and whose
command under the normalized key of each block is that block's C. -/
theorem extraction_round_trip (lead : Str) (blocks : List (Block × Str)) (name : Str)
    (hN : blocks ≠ [])
    (hlead : ∀ c ∈ lead, isSpace c = true)
    (hwf : ∀ p ∈ blocks, p.1.WellFormed ∧ ∀ c ∈ p.2, isSpace c = true)
    (hdist : (blocks.map fun p => primaryKey p.1.distro).Nodup) :
    ∃ cmdInfo, parseResponse (document lead blocks) name = some cmdInfo ∧
      (∀ k, k ∈ cmdInfo.getSupportedDistros ↔ ∃ p ∈ blocks, k = primaryKey p.1.distro) ∧
      (∀ p ∈ blocks, cmdInfo.getCommand (primaryKey p.1.distro) = p.1.command) := by
  have hent := document_entries lead blocks (isSpace_ne_lt _ hlead)
    (fun p hp => ⟨(hwf p hp).1, isSpace_ne_lt _ (hwf p hp).2⟩)
  have hne : primaryMatches (document lead blocks) ≠ [] := by
    intro e
    rw [e] at hent
    simp only [List.map_nil] at hent
    exact hN (List.map_eq_nil_iff.1 hent.symm)
  refine ⟨_, fallback_activation_aux _ name hne, ?_, ?_⟩
  · intro k
    rw [foldl_primaryBody, hent, addAll_keys]
    simp only [CommandInfo.new, CommandInfo.getSupportedDistros, List.map_nil,
      List.not_mem_nil, or_false, List.map_map, List.mem_map, Function.comp]
    constructor
    · rintro ⟨p, hp, rfl⟩; exact ⟨p, hp, rfl⟩
    · rintro ⟨p, hp, rfl⟩; exact ⟨p, hp, rfl⟩
  · intro p hp
    rw [foldl_primaryBody, hent]
    have hnd : ((blocks.map fun p => (primaryKey p.1.distro, p.1.command)).map
        Prod.fst).Nodup := by
      simpa [List.map_map, Function.comp] using hdist
    have := addAll_find_nodup (CommandInfo.new name) _ hnd
      (primaryKey p.1.distro, p.1.command) (List.mem_map.2 ⟨p, hp, rfl⟩)
    simp only [CommandInfo.getCommand, this]

/-! ## Which `<code>` element a primary match captures -/

theorem codeTail_none (s : Str) (h : codeElemAt s = false) : matchHere codeTail s = none := by
  have hk : Rejects notLt (matchHere (codeClose.map Item.lit ++
      (Item.lazyStar anyChar :: divClose.map Item.lit))) :=
    rejects_lits notLt '<' "/code>".toList _ rfl
  rw [codeTail, matchHere_lits]
  by_cases h1 : codeOpen.isPrefixOf s = true
  · rw [if_pos h1, matchHere_capPlus, groupPlus_eq notLt _ hk]
    by_cases h2 : (s.drop codeOpen.length).takeWhile notLt = []
    · rw [if_pos h2]
    · rw [if_neg h2, matchHere_lits]
      have h3 : codeClose.isPrefixOf ((s.drop codeOpen.length).dropWhile notLt) = false := by
        simp only [codeElemAt, h1, Bool.true_and, Bool.and_eq_false_imp, Bool.not_eq_true',
          List.isEmpty_eq_false, ne_eq] at h
        exact h (by simpa using h2)
      simp [h3]
  · rw [if_neg h1]

theorem noEarlierCode_fail (pre t : Str) (h : noEarlierCode pre t = true) :
    ∀ a b, pre = a ++ b → b ≠ [] → matchHere codeTail (b ++ t) = none := by
  induction pre with
  | nil =>
    intro a b hab hb
    have : b = [] := by
      cases a with
      | nil => simpa using hab.symm
      | cons x a => simp at hab
    exact absurd this hb
  | cons c pre ih =>
    simp only [noEarlierCode, Bool.and_eq_true, Bool.not_eq_true'] at h
    intro a b hab hb
    cases a with
    | nil =>
      simp only [List.nil_append] at hab
      subst hab
      exact codeTail_none _ h.1
    | cons x a =>
      simp only [List.cons_append, List.cons.injEq] at hab
      exact ih h.2 a b hab.2 hb

theorem starLazy_any_reaches (k : Str → Option MatchResult) (mid t : Str) (r : MatchResult)
    (h : k t = some r) : ∃ r', starLazy anyChar k (mid ++ t) = some r' := by
  induction mid with
  | nil => exact ⟨r, starLazy_of_some _ _ _ _ h⟩
  | cons c mid ih =>
    cases hk : k (c :: (mid ++ t)) with
    | some r' => exact ⟨r', by simp [starLazy, hk]⟩
    | none =>
      obtain ⟨r', hr⟩ := ih
      exact ⟨r', by simp [starLazy, hk, anyChar, hr]⟩

theorem divClose_scan (mid rest : Str) :
    ∃ r', starLazy anyChar (matchHere (divClose.map Item.lit)) (mid ++ (divClose ++ rest)) =
      some r' ∧ r'.groups = [] := by
  obtain ⟨r', hr⟩ := starLazy_any_reaches (matchHere (divClose.map Item.lit)) mid
    (divClose ++ rest) _ (matchHere_lits_exact divClose rest)
  refine ⟨r', hr, ?_⟩
  obtain ⟨g, t, _, _, hk⟩ := starLazy_some _ _ _ _ hr
  have := (matchHere_some _ _ _ hk).2.1
  exact List.length_eq_zero.1 (by rw [this]; decide)

/-- The pattern at an opening tag (class suffix and `data-os` value non-empty
without `"`) followed by a text `pre` in which no capturable `<code>`
element starts, then by `<code>C</code>` with C non-empty without `<`, and
with a `</div>` somewhere after it: the match has the sub-matches D, O, C. -/
theorem first_code_match (b : Block) (pre mid rest : Str) (hb : b.WellFormed)
    (hpre : noEarlierCode pre
      (codeOpen ++ (b.command ++ (codeClose ++ (mid ++ (divClose ++ rest))))) = true) :
    ∃ sfx, matchHere installDivRegex
        (divOpen ++ (b.distro ++ (dataOs ++ (b.os ++ (tagEnd ++ (pre ++
          (codeOpen ++ (b.command ++ (codeClose ++ (mid ++ (divClose ++ rest))))))))))) =
      some ⟨[b.distro, b.os, b.command], sfx⟩ := by
  obtain ⟨hd, hdq, ho, hoq, hc, hcl⟩ := hb
  obtain ⟨r', hr, hg⟩ := divClose_scan mid rest
  have h2 := codeTail_match b.command (mid ++ (divClose ++ rest)) hc hcl
  rw [hr] at h2
  have h1 : starLazy anyChar (matchHere codeTail) (pre ++
      (codeOpen ++ (b.command ++ (codeClose ++ (mid ++ (divClose ++ rest)))))) =
        some ⟨b.command :: r'.groups, r'.suffix⟩ := by
    rw [starLazy_skip anyChar _ pre _ (fun _ _ => rfl) (noEarlierCode_fail pre _ hpre)]
    exact starLazy_of_some _ _ _ _ h2
  refine ⟨r'.suffix, ?_⟩
  rw [openTag_match _ _ _ hd hdq ho hoq, h1, hg]
  rfl

/-- C3, amended. The key under which the first loop stores the command of a
primary match with class suffix `t` is `primaryKey t`: `ubuntu` if `t` is
exactly `ubuntu` or `debian`; `fedora` if `t` is exactly `fedora`, `centos`
or `rhel`; `alpine`, `arch`, `gentoo` if `t` is exactly that word; `suse` if
`t` is exactly `suse` or `opensuse`; and for every other `t` the key is `t`
itself, unchanged. -/
theorem primary_normalization (cmdInfo : CommandInfo) (divMatch : MatchResult) (t : Str) :
    primaryBody cmdInfo divMatch =
      cmdInfo.addDistroCommand (primaryKey (divMatch.group 1)) (divMatch.group 3) ∧
    (t = "ubuntu".toList ∨ t = "debian".toList → primaryKey t = "ubuntu".toList) ∧
    (t = "fedora".toList ∨ t = "centos".toList ∨ t = "rhel".toList →
      primaryKey t = "fedora".toList) ∧
    (t = "alpine".toList ∨ t = "arch".toList ∨ t = "gentoo".toList → primaryKey t = t) ∧
    (t = "suse".toList ∨ t = "opensuse".toList → primaryKey t = "suse".toList) ∧
    (t ∉ ["ubuntu".toList, "debian".toList, "fedora".toList, "centos".toList, "rhel".toList,
        "alpine".toList, "arch".toList, "suse".toList, "opensuse".toList, "gentoo".toList] →
      primaryKey t = t) := by
  refine ⟨rfl, ?_, ?_, ?_, ?_, ?_⟩
  · rintro (rfl | rfl) <;> decide
  · rintro (rfl | rfl | rfl) <;> decide
  · rintro (rfl | rfl | rfl) <;> decide
  · rintro (rfl | rfl) <;> decide
  · intro h
    simp only [List.mem_cons, List.mem_singleton, List.not_mem_nil, or_false, not_or] at h
    obtain ⟨h1, h2, h3, h4, h5, h6, h7, h8, h9, h10⟩ := h
    simp only [primaryKey, h1, h2, h3, h4, h5, h6, h7, h8, h9, h10, or_self, if_false]

/-! ## Witnesses, counterexamples and evaluations -/

/-- Witness of C1: scenario S1 evaluated, and the theorem at a document of two
blocks with whitespace around them. -/
theorem extraction_round_trip_witness :
    document [] [(blockUbuntu, [])] = docS1 ∧
    parseResponse docS1 "tree".toList =
      some ⟨"tree".toList, [("ubuntu".toList, "sudo apt install tree".toList)]⟩ ∧
    ∃ cmdInfo, parseResponse
        (document " ".toList [(blockUbuntu, "\n  ".toList), (blockArch, "\n".toList)])
        "tree".toList = some cmdInfo ∧
      (∀ k, k ∈ cmdInfo.getSupportedDistros ↔
        ∃ p ∈ [(blockUbuntu, "\n  ".toList), (blockArch, "\n".toList)],
          k = primaryKey p.1.distro) ∧
      (∀ p ∈ [(blockUbuntu, "\n  ".toList), (blockArch, "\n".toList)],
        cmdInfo.getCommand (primaryKey p.1.distro) = p.1.command) :=
  ⟨by decide, by decide,
    extraction_round_trip " ".toList [(blockUbuntu, "\n  ".toList), (blockArch, "\n".toList)]
      "tree".toList (by decide) (by decide) (by decide) (by decide)⟩

/-- Witness of C2: scenario S2, three blocks that all normalize to `fedora`. -/
theorem later_match_wins_witness :
    parseResponse docS2 "tree".toList =
      some ⟨"tree".toList, [("fedora".toList, "yum install -y tree".toList)]⟩ ∧
    ((primaryMatches docS2).filter
      fun m => decide (primaryKey (m.group 1) = "fedora".toList)).length = 3 ∧
    ∃ cmdInfo last, parseResponse docS2 "tree".toList = some cmdInfo ∧
      ((primaryMatches docS2).filter
        fun m => decide (primaryKey (m.group 1) = "fedora".toList)).getLast? = some last ∧
      cmdInfo.getCommand "fedora".toList = last.group 3 ∧
      (cmdInfo.getSupportedDistros.filter fun k => decide (k = "fedora".toList)).length = 1 :=
  ⟨by decide, by decide, later_match_wins docS2 "tree".toList "fedora".toList (by decide)⟩

/-- C3, counterexample: the block `install-Plan9` is stored under `Plan9`, the
class suffix as it stands, and not under its lowercased form `plan9`. -/
theorem primary_normalization_counterexample :
    parseResponse docPlan9 "tree".toList =
      some ⟨"tree".toList, [("Plan9".toList, "pkg add tree".toList)]⟩ ∧
    "Plan9".toList.map toLowerChar = "plan9".toList ∧
    primaryKey "Plan9".toList ≠ "Plan9".toList.map toLowerChar := by
  decide

/-- Witness of C3 as amended, at the tags `Plan9` and `debian`. -/
theorem primary_normalization_witness :
    "Plan9".toList ∉ ["ubuntu".toList, "debian".toList, "fedora".toList, "centos".toList,
      "rhel".toList, "alpine".toList, "arch".toList, "suse".toList, "opensuse".toList,
      "gentoo".toList] ∧
    primaryKey "Plan9".toList = "Plan9".toList ∧
    primaryKey "debian".toList = "ubuntu".toList :=
  ⟨by decide,
    (primary_normalization (CommandInfo.new []) ⟨[], []⟩ "Plan9".toList).2.2.2.2.2 (by decide),
    (primary_normalization (CommandInfo.new []) ⟨[], []⟩ "debian".toList).2.1
      (Or.inr rfl)⟩

/-- C4, the code at scenario S4: the fallback stores the command under `x`, the
last letter of `Arch Linux`, and nothing under `arch`. -/
theorem fallback_s4_evaluation :
    parseResponse docS4 "neovim".toList =
      some ⟨"neovim".toList, [("x".toList, "pacman -S neovim".toList)]⟩ ∧
    (⟨"neovim".toList, [("x".toList, "pacman -S neovim".toList)]⟩ : CommandInfo).hasDistro
      "arch".toList = false ∧
    strContains ("Arch Linux".toList.map toLowerChar) "arch".toList = true := by
  decide

/-- Witness of C5: a document with a primary block and a definition-list
entry, and scenario S4 with no primary block. -/
theorem fallback_activation_witness :
    primaryMatches docMixed ≠ [] ∧ fallbackMatches docMixed ≠ [] ∧
    parseResponse docMixed "tree".toList =
      some ⟨"tree".toList, [("ubuntu".toList, "sudo apt install tree".toList)]⟩ ∧
    primaryMatches docS4 = [] ∧
    parseResponse docS4 "neovim".toList =
      some ((fallbackMatches docS4).foldl fallbackBody (CommandInfo.new "neovim".toList)) :=
  ⟨by decide, by decide,
    ((fallback_activation docMixed "tree".toList).1 (by decide)).trans (by decide),
    by decide, (fallback_activation docS4 "neovim".toList).2 (by decide)⟩

/-- C6, counterexample: a div without `<code>` gets the command of the next
div, whose own entry is lost; and behind an empty first `<code>` the second
`<code>` of the div is taken. -/
theorem first_code_counterexample :
    parseResponse docNoCode "tree".toList =
      some ⟨"tree".toList, [("arch".toList, "apt install tree".toList)]⟩ ∧
    parseResponse docEmptyCode "tree".toList =
      some ⟨"tree".toList, [("arch".toList, "pacman -S tree".toList)]⟩ := by
  decide

/-- Witness of C7: three calls, two of them with the key `ubuntu`. -/
theorem absence_sentinel_witness :
    "fedora".toList ∉
      [("ubuntu".toList, "apt install a".toList), ("arch".toList, "pacman -S a".toList),
        ("ubuntu".toList, "apt-get install a".toList)].map Prod.fst ∧
    (addAll (CommandInfo.new "a".toList)
      [("ubuntu".toList, "apt install a".toList), ("arch".toList, "pacman -S a".toList),
        ("ubuntu".toList, "apt-get install a".toList)]).getCommand "fedora".toList =
      "No installation command found for this distribution".toList ∧
    (addAll (CommandInfo.new "a".toList)
      [("ubuntu".toList, "apt install a".toList), ("arch".toList, "pacman -S a".toList),
        ("ubuntu".toList, "apt-get install a".toList)]).hasDistro "ubuntu".toList = true :=
  ⟨by decide,
    ((absence_sentinel "a".toList
      [("ubuntu".toList, "apt install a".toList), ("arch".toList, "pacman -S a".toList),
        ("ubuntu".toList, "apt-get install a".toList)] "fedora".toList).1 (by decide)).1,
    ((absence_sentinel "a".toList
      [("ubuntu".toList, "apt install a".toList), ("arch".toList, "pacman -S a".toList),
        ("ubuntu".toList, "apt-get install a".toList)] "ubuntu".toList).2 (by decide)).1⟩

/-- Witness of C8: a page on which neither pattern matches. -/
theorem empty_input_never_fails_witness :
    regexSearch installDivRegex "<html><body>404</body></html>".toList = none ∧
    regexSearch codeBlockRegex "<html><body>404</body></html>".toList = none ∧
    parseResponse "<html><body>404</body></html>".toList "foo".toList =
      some (CommandInfo.new "foo".toList) :=
  ⟨by decide, by decide,
    (empty_input_never_fails "foo".toList).2.2.2 "<html><body>404</body></html>".toList
      (by decide) (by decide)⟩

/-- Witness of C10: the same keys added in two different orders. -/
theorem keys_ascending_unique_witness :
    (addAll (CommandInfo.new "a".toList)
      [("ubuntu".toList, "1".toList), ("arch".toList, "2".toList),
        ("fedora".toList, "3".toList), ("arch".toList, "4".toList)]).getSupportedDistros =
      ["arch".toList, "fedora".toList, "ubuntu".toList] ∧
    (addAll (CommandInfo.new "b".toList)
      [("fedora".toList, "5".toList), ("ubuntu".toList, "6".toList),
        ("arch".toList, "7".toList)]).getSupportedDistros =
    (addAll (CommandInfo.new "a".toList)
      [("ubuntu".toList, "1".toList), ("arch".toList, "2".toList),
        ("fedora".toList, "3".toList), ("arch".toList, "4".toList)]).getSupportedDistros :=
  ⟨by decide,
    (keys_ascending_unique "a".toList
      [("ubuntu".toList, "1".toList), ("arch".toList, "2".toList),
        ("fedora".toList, "3".toList), ("arch".toList, "4".toList)]).2.2.2 "b".toList
      [("fedora".toList, "5".toList), ("ubuntu".toList, "6".toList),
        ("arch".toList, "7".toList)] (by intro k; simp; tauto)⟩

/-! ## The listing of all commands and the metadata of unknown keys -/

theorem mapFind_of_mem (m : List (Str × Str)) (h : KeysAscending m) (p : Str × Str)
    (hp : p ∈ m) : mapFind m p.1 = some p.2 := by
  induction m with
  | nil => simp at hp
  | cons q m ih =>
    obtain ⟨k', v'⟩ := q
    simp only [KeysAscending, List.map_cons, List.pairwise_cons] at h
    rcases List.mem_cons.1 hp with rfl | hp
    · exact mapFind_cons_eq _ _ _
    · have hlt : strLess k' p.1 = true := h.1 p.1 (List.mem_map.2 ⟨p, hp, rfl⟩)
      have hne : p.1 ≠ k' := by
        intro e
        rw [e, strLess_irrefl] at hlt
        exact Bool.noConfusion hlt
      rw [mapFind_cons_ne _ _ _ _ hne]
      exact ih h.2 hp

theorem getAllCommands_eq (cmdInfo : CommandInfo) (h : KeysAscending cmdInfo.installCommands) :
    cmdInfo.getAllCommands =
      (cmdInfo.getSupportedDistros.map fun k =>
        k ++ ": ".toList ++ cmdInfo.getCommand k ++ "\n".toList).flatten := by
  simp only [CommandInfo.getAllCommands, CommandInfo.getSupportedDistros, List.map_map]
  congr 1
  apply List.map_congr_left
  intro p hp
  simp only [Function.comp, CommandInfo.getCommand, mapFind_of_mem _ h p hp]

/-- C11. On the record reached from `CommandInfo(name)` by any sequence `ops` of
`addDistroCommand` calls, `getAllCommands()` is the concatenation, over the
keys `k` of `getSupportedDistros()` in that order, of the lines
`k ++ ": " ++ getCommand(k) ++ "\n"`, one line per key; for the record
without entries it is the empty string. -/
theorem all_commands_format (name : Str) (ops : List (Str × Str)) :
    (addAll (CommandInfo.new name) ops).getAllCommands =
      ((addAll (CommandInfo.new name) ops).getSupportedDistros.map fun k =>
        k ++ ": ".toList ++ (addAll (CommandInfo.new name) ops).getCommand k ++
          "\n".toList).flatten ∧
    ((addAll (CommandInfo.new name) ops).getSupportedDistros.map fun k =>
        k ++ ": ".toList ++ (addAll (CommandInfo.new name) ops).getCommand k ++
          "\n".toList).length =
      (addAll (CommandInfo.new name) ops).getSupportedDistros.length ∧
    (CommandInfo.new name).getAllCommands = [] := by
  refine ⟨getAllCommands_eq _ ?_, by simp, rfl⟩
  exact addAll_ascending (CommandInfo.new name) ops (by simp [KeysAscending, CommandInfo.new])

/-- C17. For every string `d` other than `ubuntu`, `fedora`, `alpine`, `arch`,
`suse`, `gentoo`, `debian`, `centos`, `rhel`, `opensuse`, `kali` and
`windows`, `getDistroIcon(d)` is `Icon::PACKAGE` and `getDistroColor(d)` is
`Color::BRIGHT_WHITE`, the sequence `ESC [97m`. -/
theorem metadata_fallback (d : Str)
    (h : d ∉ ["ubuntu".toList, "fedora".toList, "alpine".toList, "arch".toList,
      "suse".toList, "gentoo".toList, "debian".toList, "centos".toList, "rhel".toList,
      "opensuse".toList, "kali".toList, "windows".toList]) :
    getDistroIcon d = Icon.PACKAGE ∧ getDistroColor d = Color.BRIGHT_WHITE ∧
      Color.BRIGHT_WHITE = [Char.ofNat 27, '[', '9', '7', 'm'] ∧
      Icon.PACKAGE = [Char.ofNat 0xEE, Char.ofNat 0xAC, Char.ofNat 0xA9] := by
  simp only [List.mem_cons, List.mem_singleton, List.not_mem_nil, or_false, not_or] at h
  obtain ⟨h1, h2, h3, h4, h5, h6, h7, h8, h9, h10, h11, h12⟩ := h
  refine ⟨?_, ?_, by decide, by decide⟩
  · simp only [getDistroIcon, h1, h2, h3, h4, h5, h6, h7, h8, h9, h10, h11, h12, or_self,
      if_false]
  · simp only [getDistroColor, h1, h2, h3, h4, h5, h6, h7, h8, h9, h10, h11, or_self,
      if_false]

/-- Witness of C11: three calls, two of them with the key `ubuntu`. -/
theorem all_commands_format_witness :
    (addAll (CommandInfo.new "a".toList)
      [("ubuntu".toList, "apt install a".toList), ("arch".toList, "pacman -S a".toList),
        ("ubuntu".toList, "apt-get install a".toList)]).getAllCommands =
      "arch: pacman -S a\nubuntu: apt-get install a\n".toList ∧
    (addAll (CommandInfo.new "a".toList)
      [("ubuntu".toList, "apt install a".toList), ("arch".toList, "pacman -S a".toList),
        ("ubuntu".toList, "apt-get install a".toList)]).getAllCommands =
      ((addAll (CommandInfo.new "a".toList)
        [("ubuntu".toList, "apt install a".toList), ("arch".toList, "pacman -S a".toList),
          ("ubuntu".toList, "apt-get install a".toList)]).getSupportedDistros.map fun k =>
        k ++ ": ".toList ++ (addAll (CommandInfo.new "a".toList)
          [("ubuntu".toList, "apt install a".toList), ("arch".toList, "pacman -S a".toList),
            ("ubuntu".toList, "apt-get install a".toList)]).getCommand k ++
          "\n".toList).flatten :=
  ⟨by decide,
    (all_commands_format "a".toList
      [("ubuntu".toList, "apt install a".toList), ("arch".toList, "pacman -S a".toList),
        ("ubuntu".toList, "apt-get install a".toList)]).1⟩

/-- Witness of C17 at `plan9`, the empty string and `Ubuntu` with a capital. -/
theorem metadata_fallback_witness :
    (getDistroIcon "plan9".toList = Icon.PACKAGE ∧
      getDistroColor "plan9".toList = Color.BRIGHT_WHITE) ∧
    (getDistroIcon [] = Icon.PACKAGE ∧ getDistroColor [] = Color.BRIGHT_WHITE) ∧
    (getDistroIcon "Ubuntu".toList = Icon.PACKAGE ∧
      getDistroColor "Ubuntu".toList = Color.BRIGHT_WHITE) :=
  ⟨⟨(metadata_fallback "plan9".toList (by decide)).1,
      (metadata_fallback "plan9".toList (by decide)).2.1⟩,
    ⟨(metadata_fallback [] (by decide)).1, (metadata_fallback [] (by decide)).2.1⟩,
    ⟨(metadata_fallback "Ubuntu".toList (by decide)).1,
      (metadata_fallback "Ubuntu".toList (by decide)).2.1⟩⟩

/-! ## `regex_replace` and `formatCommand`: general facts -/

theorem matchAtoms_length (alt : List Atom) (s : Str) (h : matchAtoms alt s = true) :
    alt.length ≤ s.length := by
  induction alt generalizing s with
  | nil => simp
  | cons a alt ih =>
    cases s with
    | nil => simp [matchAtoms] at h
    | cons x s =>
      simp only [matchAtoms, Bool.and_eq_true] at h
      have := ih s h.2
      simp only [List.length_cons]
      omega

theorem matchGroup_le (notNull : Bool) (alts : List (List Atom)) (s : Str) (n : Nat)
    (h : matchGroup notNull alts s = some n) : n ≤ s.length := by
  induction alts with
  | nil => simp [matchGroup] at h
  | cons alt alts ih =>
    simp only [matchGroup] at h
    split_ifs at h with hc
    · simp only [Option.some.injEq] at h
      subst h
      simp only [Bool.and_eq_true] at hc
      exact matchAtoms_length alt s hc.1
    · exact ih h

theorem matchGroup_none (notNull : Bool) (alts : List (List Atom)) (s : Str)
    (h : ∀ alt ∈ alts, matchAtoms alt s = false) : matchGroup notNull alts s = none := by
  induction alts with
  | nil => rfl
  | cons alt alts ih =>
    simp only [matchGroup, h alt (by simp), Bool.false_and, Bool.false_eq_true, if_false]
    exact ih (fun a ha => h a (by simp [ha]))

/-- A substitution never shortens the text. -/
theorem regexReplace_length (alts : List (List Atom)) (before after : Str) (skip : Nat)
    (s : Str) : s.length ≤ (regexReplace alts before after skip s).length + skip := by
  induction s generalizing skip with
  | nil => simp
  | cons c s ih =>
    cases skip with
    | succ skip =>
      have := ih skip
      simp only [regexReplace, List.length_cons]
      omega
    | zero =>
      have step : ∀ n, n + 1 ≤ (c :: s).length →
          (c :: s).length ≤ (before ++ (c :: s).take (n + 1) ++ after ++
            regexReplace alts before after n s).length := by
        intro n hn
        have := ih n
        simp only [List.length_append, List.length_take, List.length_cons] at hn ⊢
        omega
      have copy : (c :: s).length ≤ (c :: regexReplace alts before after 0 s).length := by
        have := ih 0
        simp only [List.length_cons]
        omega
      simp only [regexReplace]
      cases hm : matchGroup false alts (c :: s) with
      | none => simpa using copy
      | some n =>
        cases n with
        | succ n => simpa using step n (matchGroup_le _ _ _ _ hm)
        | zero =>
          simp only [Nat.add_zero]
          cases hm' : matchGroup true alts (c :: s) with
          | none =>
            have := copy
            simp only [List.length_append, List.length_cons] at this ⊢
            omega
          | some n' =>
            cases n' with
            | succ n' =>
              have := step n' (matchGroup_le _ _ _ _ hm')
              simp only [List.length_append, List.length_cons] at this ⊢
              omega
            | zero =>
              have := copy
              simp only [List.length_append, List.length_cons] at this ⊢
              omega

/-- A substitution whose pattern matches nowhere copies the text. -/
theorem regexReplace_id (alts : List (List Atom)) (before after : Str) (s : Str)
    (h : ∀ x y, s = x ++ y → matchGroup false alts y = none) :
    regexReplace alts before after 0 s = s := by
  induction s with
  | nil => simp [regexReplace, h [] [] rfl]
  | cons c s ih =>
    simp only [regexReplace, h [] (c :: s) rfl]
    rw [ih (fun x y e => h (c :: x) y (by simp [e]))]

theorem matchAtoms_chr (t s : Str) : matchAtoms (t.map Atom.chr) s = t.isPrefixOf s := by
  induction t generalizing s with
  | nil => simp [matchAtoms]
  | cons c t ih =>
    cases s with
    | nil => simp [matchAtoms]
    | cons x s =>
      simp only [List.map_cons, matchAtoms, Atom.accepts, ih, List.isPrefixOf]
      congr 1
      rw [Bool.eq_iff_iff]
      simp only [beq_iff_eq]
      exact eq_comm

theorem nameAtoms_literal (name : Str) (h : ∀ c ∈ name, c ∉ metaChars) :
    nameAtoms name = some (name.map Atom.chr) := by
  induction name with
  | nil => rfl
  | cons c name ih =>
    have hc : c ∉ metaChars := h c (by simp)
    have hd : c ≠ '.' := by
      rintro rfl
      exact hc (by decide)
    simp only [nameAtoms, hd, hc, if_false, ih (fun x hx => h x (by simp [hx])),
      Option.map_some', List.map_cons]

theorem strContains_false (s t : Str) (h : strContains s t = false) :
    ∀ x y, s = x ++ y → t.isPrefixOf y = false := by
  induction s with
  | nil =>
    intro x y e
    have hx : x = [] ∧ y = [] := by simpa using e.symm
    rw [hx.2]
    cases t with
    | nil => simp [strContains] at h
    | cons c t => rfl
  | cons c s ih =>
    simp only [strContains, Bool.or_eq_false_iff] at h
    intro x y e
    cases x with
    | nil =>
      simp only [List.nil_append] at e
      rw [← e]; exact h.1
    | cons a x =>
      simp only [List.cons_append, List.cons.injEq] at e
      exact ih h.2 x y e.2

theorem regexReplace_words_id (ws : List Str) (before after s : Str)
    (h : ∀ w ∈ ws, strContains s w = false) :
    regexReplace (ws.map fun w => w.map Atom.chr) before after 0 s = s := by
  apply regexReplace_id
  intro x y e
  apply matchGroup_none
  intro alt halt
  obtain ⟨w, hw, rfl⟩ := List.mem_map.1 halt
  rw [matchAtoms_chr]
  exact strContains_false s w (h w hw) x y e

/-- The token substitutions copy a command in which no token occurs. -/
theorem highlightTokens_id (command : Str)
    (h : ∀ w ∈ highlightWords, strContains command w = false) :
    highlightTokens command = command := by
  have h1 : regexReplace sudoRegex Color.RED Color.RESET 0 command = command :=
    regexReplace_words_id ["sudo".toList] _ _ _
      (fun w hw => h w (by
        simp only [List.mem_singleton] at hw
        subst hw; decide))
  have h2 : regexReplace packageManagerRegex Color.BLUE Color.RESET 0 command = command :=
    regexReplace_words_id ["apt".toList, "apt-get".toList, "dnf".toList, "yum".toList,
      "pacman".toList, "apk".toList, "zypper".toList, "emerge".toList] _ _ _
      (fun w hw => h w (by
        simp only [List.mem_cons, List.mem_singleton, List.not_mem_nil, or_false] at hw
        rcases hw with rfl | rfl | rfl | rfl | rfl | rfl | rfl | rfl <;> decide))
  have h3 : regexReplace installRegex Color.GREEN Color.RESET 0 command = command :=
    regexReplace_words_id ["install".toList, "add".toList, "get".toList] _ _ _
      (fun w hw => h w (by
        simp only [List.mem_cons, List.mem_singleton, List.not_mem_nil, or_false] at hw
        rcases hw with rfl | rfl | rfl <;> decide))
  simp only [highlightTokens, h1, h2, h3]

theorem regexReplace_skip (alts : List (List Atom)) (before after : Str) (x rest : Str) :
    regexReplace alts before after x.length (x ++ rest) =
      regexReplace alts before after 0 rest := by
  induction x with
  | nil => rfl
  | cons c x ih => simpa [regexReplace] using ih

theorem regexReplace_cons_none (alts : List (List Atom)) (before after : Str) (c : Char)
    (s : Str) (h : matchGroup false alts (c :: s) = none) :
    regexReplace alts before after 0 (c :: s) = c :: regexReplace alts before after 0 s := by
  simp only [regexReplace, h]

theorem regexReplace_cons_some (alts : List (List Atom)) (before after : Str) (c : Char)
    (s : Str) (n : Nat) (h : matchGroup false alts (c :: s) = some (n + 1)) :
    regexReplace alts before after 0 (c :: s) =
      before ++ (c :: s).take (n + 1) ++ after ++ regexReplace alts before after n s := by
  simp only [regexReplace, h]

theorem matchGroup_single (alt : List Atom) (s : Str) (h : matchAtoms alt s = true) :
    matchGroup false [alt] s = some alt.length := by
  simp [matchGroup, h]

/-- A substitution copies a stretch of text in which its pattern matches at no
position. -/
theorem regexReplace_copy (alts : List (List Atom)) (before after : Str) (p t : Str)
    (h : ∀ x y, p = x ++ y → y ≠ [] → matchGroup false alts (y ++ t) = none) :
    regexReplace alts before after 0 (p ++ t) = p ++ regexReplace alts before after 0 t := by
  induction p with
  | nil => rfl
  | cons c p ih =>
    have h1 : matchGroup false alts (c :: (p ++ t)) = none := h [] (c :: p) rfl (by simp)
    rw [List.cons_append, regexReplace_cons_none _ _ _ _ _ h1,
      ih (fun x y e hy => h (c :: x) y (by simp [e]) hy), List.cons_append]

/-- A substitution for a literal word, at an occurrence of the word. -/
theorem regexReplace_hit (w before after rest : Str) (hw : w ≠ []) :
    regexReplace [w.map Atom.chr] before after 0 (w ++ rest) =
      before ++ w ++ after ++ regexReplace [w.map Atom.chr] before after 0 rest := by
  have hm : matchAtoms (w.map Atom.chr) (w ++ rest) = true := by
    rw [matchAtoms_chr, List.isPrefixOf_iff_prefix]
    exact List.prefix_append _ _
  have hg := matchGroup_single _ _ hm
  cases w with
  | nil => exact absurd rfl hw
  | cons c w =>
    rw [List.length_map, List.length_cons, List.cons_append] at hg
    rw [List.cons_append, regexReplace_cons_some _ _ _ _ _ _ hg, regexReplace_skip]
    have : List.take (w.length + 1) (c :: (w ++ rest)) = c :: w := by
      simp
    rw [this]

theorem prefix_shift (w y rest : Str) (hw : w ≠ []) (hy : y ≠ [])
    (h : w.isPrefixOf (y ++ (w ++ rest)) = true) : w.isPrefixOf (y ++ w.dropLast) = true := by
  rw [List.isPrefixOf_iff_prefix] at h ⊢
  have e : y ++ (w ++ rest) = (y ++ w.dropLast) ++ (w.getLast hw :: rest) := by
    conv_lhs => rw [← List.dropLast_append_getLast hw]
    simp [List.append_assoc]
  rw [e] at h
  apply List.prefix_of_prefix_length_le h (List.prefix_append _ _)
  have hy' : 0 < y.length := List.length_pos.2 hy
  have hw' : 0 < w.length := List.length_pos.2 hw
  simp only [List.length_append, List.length_dropLast]
  omega

/-- The substitution for a literal word on a text cut at the occurrences of
the word that a scan from the left finds. -/
theorem regexReplace_pieces (w before after : Str) (pieces : List Str) (last : Str)
    (hw : w ≠ [])
    (hp : ∀ p ∈ pieces, strContains (p ++ w.dropLast) w = false)
    (hl : strContains last w = false) :
    regexReplace [w.map Atom.chr] before after 0
        ((pieces.map fun p => p ++ w).flatten ++ last) =
      (pieces.map fun p => p ++ (before ++ w ++ after)).flatten ++ last := by
  induction pieces with
  | nil =>
    simp only [List.map_nil, List.flatten_nil, List.nil_append]
    have := regexReplace_words_id [w] before after last
      (fun x hx => by
        simp only [List.mem_singleton] at hx
        subst hx; exact hl)
    simpa using this
  | cons p pieces ih =>
    have hcopy : ∀ x y, p = x ++ y → y ≠ [] →
        matchGroup false [w.map Atom.chr]
          (y ++ (w ++ ((pieces.map fun p => p ++ w).flatten ++ last))) = none := by
      intro x y e hy
      apply matchGroup_none
      intro alt halt
      simp only [List.mem_singleton] at halt
      subst halt
      rw [matchAtoms_chr]
      cases hpre : w.isPrefixOf (y ++ (w ++ ((pieces.map fun p => p ++ w).flatten ++ last)))
      · rfl
      · have h1 := prefix_shift w y _ hw hy hpre
        have h2 := strContains_false _ _ (hp p (by simp)) x (y ++ w.dropLast)
          (by simp [e, List.append_assoc])
        rw [h1] at h2
        exact Bool.noConfusion h2
    have e : ((p :: pieces).map fun p => p ++ w).flatten ++ last =
        p ++ (w ++ ((pieces.map fun p => p ++ w).flatten ++ last)) := by
      simp [List.append_assoc]
    rw [e, regexReplace_copy _ _ _ _ _ hcopy, regexReplace_hit _ _ _ _ hw,
      ih (fun q hq => hp q (by simp [hq]))]
    simp [List.append_assoc]

/-- For a record name without regex metacharacter, `formatCommand` returns
unchanged a command that holds no highlight token and no occurrence of the
name. -/
theorem formatCommand_id_of_literal (self : CommandInfo) (command : Str)
    (hlit : ∀ c ∈ self.name, c ∉ metaChars)
    (hw : ∀ w ∈ highlightWords, strContains command w = false)
    (hn : strContains command self.name = false) :
    self.formatCommand command = some command := by
  have h4 := regexReplace_words_id [self.name] (Color.CYAN ++ Color.BOLD) Color.RESET command
    (fun w hw' => by
      simp only [List.mem_singleton] at hw'
      subst hw'; exact hn)
  simp only [List.map_cons, List.map_nil] at h4
  simp only [CommandInfo.formatCommand, nameAtoms_literal _ hlit, highlightTokens_id _ hw, h4]

/-! ## Settled claims on `formatCommand` -/

/-- C12, the code at a name with a wildcard: for the record name `mkfs.ext4` the
command `nix-env -i mkfs-ext4` holds no highlight token and no occurrence of
the name, and `formatCommand` does not return it unchanged: the pattern
`(mkfs.ext4)` matches `mkfs-ext4`. -/
theorem format_identity_evaluation :
    (∀ w ∈ highlightWords, strContains "nix-env -i mkfs-ext4".toList w = false) ∧
    strContains "nix-env -i mkfs-ext4".toList "mkfs.ext4".toList = false ∧
    (⟨"mkfs.ext4".toList, []⟩ : CommandInfo).formatCommand "nix-env -i mkfs-ext4".toList =
      some ("nix-env -i ".toList ++ Color.CYAN ++ Color.BOLD ++ "mkfs-ext4".toList ++
        Color.RESET) ∧
    (⟨"mkfs.ext4".toList, []⟩ : CommandInfo).formatCommand "nix-env -i mkfs-ext4".toList ≠
      some "nix-env -i mkfs-ext4".toList := by
  decide

/-- C13, counterexample: for the record name `apt-file` the command
`apt install apt-file` holds the name once, and the output of
`formatCommand` holds no cyan-bold copy of it: the package-manager
substitution has put escape sequences around its `apt`. -/
theorem name_highlighting_counterexample :
    strContains "apt install apt-file".toList "apt-file".toList = true ∧
    (⟨"apt-file".toList, []⟩ : CommandInfo).formatCommand "apt install apt-file".toList =
      some (Color.BLUE ++ "apt".toList ++ Color.RESET ++ " ".toList ++ Color.GREEN ++
        "install".toList ++ Color.RESET ++ " ".toList ++ Color.BLUE ++ "apt".toList ++
        Color.RESET ++ "-file".toList) ∧
    strContains (Color.BLUE ++ "apt".toList ++ Color.RESET ++ " ".toList ++ Color.GREEN ++
        "install".toList ++ Color.RESET ++ " ".toList ++ Color.BLUE ++ "apt".toList ++
        Color.RESET ++ "-file".toList)
      (Color.CYAN ++ Color.BOLD ++ "apt-file".toList ++ Color.RESET) = false := by
  decide

/-- C13, amended. For a record name that is non-empty and has no regex
metacharacter, every occurrence of the name in the text that the three
token substitutions produce from the command, taken from left to right
without overlap, is wrapped by `formatCommand` as
`CYAN ++ BOLD ++ name ++ RESET`, and the text between the occurrences is kept:
the output has as many cyan-bold copies of the name as that text has such
occurrences.  That text is the command itself when no highlight token
occurs in the command. -/
theorem name_highlighting (self : CommandInfo) (command : Str) (pieces : List Str)
    (last : Str) (hne : self.name ≠ []) (hlit : ∀ c ∈ self.name, c ∉ metaChars)
    (hsplit : highlightTokens command = (pieces.map fun p => p ++ self.name).flatten ++ last)
    (hp : ∀ p ∈ pieces, strContains (p ++ self.name.dropLast) self.name = false)
    (hl : strContains last self.name = false) :
    self.formatCommand command =
      some ((pieces.map fun p =>
        p ++ (Color.CYAN ++ Color.BOLD ++ self.name ++ Color.RESET)).flatten ++ last) ∧
    ((∀ w ∈ highlightWords, strContains command w = false) →
      highlightTokens command = command) := by
  refine ⟨?_, highlightTokens_id command⟩
  simp only [CommandInfo.formatCommand, nameAtoms_literal _ hlit, hsplit]
  rw [regexReplace_pieces _ _ _ _ _ hne hp hl]

/-- Witness of C13 as amended: the name `tree` twice in a command without
highlight tokens. -/
theorem name_highlighting_witness :
    highlightTokens "nix-env -i tree treesitter".toList = "nix-env -i tree treesitter".toList ∧
    (⟨"tree".toList, []⟩ : CommandInfo).formatCommand "nix-env -i tree treesitter".toList =
      some ((["nix-env -i ".toList, " ".toList].map fun p =>
        p ++ (Color.CYAN ++ Color.BOLD ++ "tree".toList ++ Color.RESET)).flatten ++
          "sitter".toList) :=
  ⟨by decide,
    (name_highlighting ⟨"tree".toList, []⟩ "nix-env -i tree treesitter".toList
      ["nix-env -i ".toList, " ".toList] "sitter".toList (by decide) (by decide) (by decide)
      (by decide) (by decide)).1⟩

/-- C14, the code at `apt-get`: after the `sudo` and the package-manager
substitutions the command `sudo apt-get install tree` has only `apt` in
blue, with `-get` left outside, and nowhere `BLUE ++ "apt-get" ++ RESET`. -/
theorem package_manager_evaluation :
    strContains "sudo apt-get install tree".toList "apt-get".toList = true ∧
    regexReplace packageManagerRegex Color.BLUE Color.RESET 0
        (regexReplace sudoRegex Color.RED Color.RESET 0 "sudo apt-get install tree".toList) =
      Color.RED ++ "sudo".toList ++ Color.RESET ++ " ".toList ++ Color.BLUE ++ "apt".toList ++
        Color.RESET ++ "-get install tree".toList ∧
    strContains
        (regexReplace packageManagerRegex Color.BLUE Color.RESET 0
          (regexReplace sudoRegex Color.RED Color.RESET 0 "sudo apt-get install tree".toList))
        (Color.BLUE ++ "apt-get".toList ++ Color.RESET) = false := by
  decide

/-! ## The wrapping of long commands in `operator<<` -/

/-- The continuation loop ends within its fuel; its chunks are non-empty, at
most 56 characters long, and together they are the formatted command from
`pos` on. -/
theorem continuationChunks_some (formattedCmd : Str) (fuel pos : Nat)
    (h : formattedCmd.length - pos < fuel) :
    ∃ chunks, continuationChunks formattedCmd fuel pos = some chunks ∧
      (∀ chunk ∈ chunks, chunk ≠ [] ∧ chunk.length ≤ 56) ∧
      chunks.flatten = formattedCmd.drop pos := by
  induction fuel generalizing pos with
  | zero => omega
  | succ fuel ih =>
    by_cases hp : pos < formattedCmd.length
    · have hc : 0 < min (maxCmdLength - 12) (formattedCmd.length - pos) := by
        simp only [maxCmdLength]; omega
      have hc56 : min (maxCmdLength - 12) (formattedCmd.length - pos) ≤ 56 := by
        simp only [maxCmdLength]; omega
      obtain ⟨chunks, h1, h2, h3⟩ :=
        ih (pos + min (maxCmdLength - 12) (formattedCmd.length - pos)) (by omega)
      refine ⟨(formattedCmd.drop pos).take
          (min (maxCmdLength - 12) (formattedCmd.length - pos)) :: chunks, ?_, ?_, ?_⟩
      · simp only [continuationChunks, hp, if_true, h1, Option.map_some']
      · intro chunk hch
        rcases List.mem_cons.1 hch with rfl | hch
        · have hl : ((formattedCmd.drop pos).take
              (min (maxCmdLength - 12) (formattedCmd.length - pos))).length =
              min (maxCmdLength - 12) (formattedCmd.length - pos) := by
            simp only [List.length_take, List.length_drop]; omega
          refine ⟨?_, by omega⟩
          intro e
          rw [e] at hl
          simp only [List.length_nil] at hl
          omega
        · exact h2 chunk hch
      · rw [List.flatten_cons, h3, ← List.drop_drop, List.take_append_drop]
    · refine ⟨[], by simp only [continuationChunks, hp, if_false], by simp, ?_⟩
      simp only [List.flatten_nil]
      exact (List.drop_eq_nil_of_le (by omega)).symm

theorem formatCommand_length (self : CommandInfo) (cmd formattedCmd : Str)
    (h : self.formatCommand cmd = some formattedCmd) : cmd.length ≤ formattedCmd.length := by
  simp only [CommandInfo.formatCommand] at h
  cases hn : nameAtoms self.name with
  | none => rw [hn] at h; simp at h
  | some alt =>
    rw [hn] at h
    simp only [Option.some.injEq] at h
    subst h
    have h1 := regexReplace_length sudoRegex Color.RED Color.RESET 0 cmd
    have h2 := regexReplace_length packageManagerRegex Color.BLUE Color.RESET 0
      (regexReplace sudoRegex Color.RED Color.RESET 0 cmd)
    have h3 := regexReplace_length installRegex Color.GREEN Color.RESET 0
      (regexReplace packageManagerRegex Color.BLUE Color.RESET 0
        (regexReplace sudoRegex Color.RED Color.RESET 0 cmd))
    have h4 := regexReplace_length [alt] (Color.CYAN ++ Color.BOLD) Color.RESET 0
      (highlightTokens cmd)
    simp only [highlightTokens] at h4 ⊢
    omega

theorem streamEntryWith_long (distro cmd formattedCmd : Str) (h : 68 < cmd.length) :
    ∃ chunks, continuationChunks formattedCmd (formattedCmd.length + 1) 65 = some chunks ∧
      (∀ chunk ∈ chunks, chunk ≠ [] ∧ chunk.length ≤ 56) ∧
      formattedCmd.take 65 ++ chunks.flatten = formattedCmd ∧
      streamEntryWith distro cmd formattedCmd =
        some (distroColumn distro ++
          (Icon.ARROW ++ " ".toList ++ formattedCmd.take 65 ++ "...".toList ++ "\n".toList ++
            (chunks.map fun chunk =>
              List.replicate 12 ' ' ++ chunk ++ "\n".toList).flatten)) := by
  obtain ⟨chunks, h1, h2, h3⟩ :=
    continuationChunks_some formattedCmd (formattedCmd.length + 1) 65 (by omega)
  refine ⟨chunks, h1, h2, by rw [h3, List.take_append_drop], ?_⟩
  have h' : ¬ cmd.length ≤ maxCmdLength := by
    simp only [maxCmdLength]; omega
  have e : maxCmdLength - 3 = 65 := rfl
  simp only [streamEntryWith, streamCommand, h', if_false, e, h1]

theorem streamEntry_eq (self : CommandInfo) (distro cmd formattedCmd : Str)
    (hf : self.formatCommand cmd = some formattedCmd) :
    self.streamEntry distro cmd = streamEntryWith distro cmd formattedCmd := by
  simp only [CommandInfo.streamEntry, hf]

theorem streamEntry_long (self : CommandInfo) (distro cmd formattedCmd : Str)
    (hf : self.formatCommand cmd = some formattedCmd) (h : 68 < cmd.length) :
    ∃ chunks, continuationChunks formattedCmd (formattedCmd.length + 1) 65 = some chunks ∧
      (∀ chunk ∈ chunks, chunk ≠ [] ∧ chunk.length ≤ 56) ∧
      formattedCmd.take 65 ++ chunks.flatten = formattedCmd ∧
      self.streamEntry distro cmd =
        some (distroColumn distro ++
          (Icon.ARROW ++ " ".toList ++ formattedCmd.take 65 ++ "...".toList ++ "\n".toList ++
            (chunks.map fun chunk =>
              List.replicate 12 ' ' ++ chunk ++ "\n".toList).flatten)) := by
  rw [streamEntry_eq self distro cmd formattedCmd hf]
  exact streamEntryWith_long distro cmd formattedCmd h

/-- C20. For a record whose name has no regex metacharacter and a command of
more than 68 characters: `formatCommand(cmd)` is at least as long as `cmd`,
so its first 65 characters exist; the continuation loop of `operator<<`
ends; every chunk it writes is non-empty and at most 56 characters long; and
the 65-character prefix followed by the chunks in order is exactly
`formatCommand(cmd)`. -/
theorem wrapping_lossless (self : CommandInfo) (distro cmd : Str)
    (hname : ∀ c ∈ self.name, c ∉ metaChars) (hlen : 68 < cmd.length) :
    ∃ formattedCmd chunks, self.formatCommand cmd = some formattedCmd ∧
      cmd.length ≤ formattedCmd.length ∧
      (formattedCmd.take 65).length = 65 ∧
      continuationChunks formattedCmd (formattedCmd.length + 1) 65 = some chunks ∧
      (∀ chunk ∈ chunks, chunk ≠ [] ∧ chunk.length ≤ 56) ∧
      formattedCmd.take 65 ++ chunks.flatten = formattedCmd ∧
      self.streamEntry distro cmd =
        some (distroColumn distro ++
          (Icon.ARROW ++ " ".toList ++ formattedCmd.take 65 ++ "...".toList ++ "\n".toList ++
            (chunks.map fun chunk =>
              List.replicate 12 ' ' ++ chunk ++ "\n".toList).flatten)) := by
  have hf : self.formatCommand cmd = some (regexReplace [self.name.map Atom.chr]
      (Color.CYAN ++ Color.BOLD) Color.RESET 0 (highlightTokens cmd)) := by
    simp only [CommandInfo.formatCommand, nameAtoms_literal _ hname]
  have hl := formatCommand_length self cmd _ hf
  obtain ⟨chunks, h1, h2, h3, h4⟩ := streamEntry_long self distro cmd _ hf hlen
  refine ⟨_, chunks, hf, hl, ?_, h1, h2, h3, h4⟩
  simp only [List.length_take]
  omega

/-! ## Settled claims on `main` -/

/-- C15, the code at a transport error: for every argument set and every error
text, `main` writes the error line of `search_for` and the `what()` of the
exception to `std::cerr`, writes nothing to `std::cout` after the
`Searching for` banner, and ends with exit code 0. -/
theorem transport_error_evaluation (args : Args) (message : Str) :
    main args (.error message) =
      some ⟨searchingBanner args.command,
        Icon.ERROR ++ " ".toList ++ Color.BRIGHT_RED ++ "Error: ".toList ++ message ++
          Color.RESET ++ "\n".toList ++ ("cURL request failed: ".toList ++ message) ++
          "\n".toList,
        0⟩ := by
  simp only [main, search_for, List.append_assoc]

/-- C16, counterexample: in single-entry mode for scenario S1 and the distro
`ubuntu` the text on `std::cout` ends with the entry line, in which the
command follows `ubuntu: ` directly; the sequence `RESET ++ DIM` occurs
nowhere in the output. -/
theorem single_entry_counterexample :
    main ⟨"tree".toList, "ubuntu".toList, false⟩ (.body docS1) =
      some ⟨searchingBanner "tree".toList ++ foundBanner "tree".toList ++
        ("\n".toList ++ Icon.UBUNTU ++ "ubuntu: sudo apt install tree\n".toList), [], 0⟩ ∧
    strContains
      (searchingBanner "tree".toList ++ foundBanner "tree".toList ++
        ("\n".toList ++ Icon.UBUNTU ++ "ubuntu: sudo apt install tree\n".toList))
      (Color.RESET ++ Color.DIM) = false := by
  decide

/-- C16, amended. In single-entry mode (`--list` unset), for every record and
every distro string `d`, the entry line written to `std::cout` is
`getDistroIcon(d) ++ d ++ ": " ++ getCommand(d)` between two newlines, the
command verbatim (the sentinel string when `d` is absent) with no SGR
sequence before it, and the exit code is 0; after a successful transfer it
follows the two banners of `search_for`. -/
theorem single_entry_output (args : Args) (command : CommandInfo) (readBuffer : Str)
    (hlist : args.list = false) :
    mainReport args command =
      ("\n".toList ++ getDistroIcon args.distro ++ args.distro ++ ": ".toList ++
        command.getCommand args.distro ++ "\n".toList, 0) ∧
    (command.hasDistro args.distro = false →
      command.getCommand args.distro =
        "No installation command found for this distribution".toList) ∧
    ∃ cmdInfo, parseResponse readBuffer args.command = some cmdInfo ∧
      main args (.body readBuffer) =
        some ⟨searchingBanner args.command ++ foundBanner args.command ++
          ("\n".toList ++ getDistroIcon args.distro ++ args.distro ++ ": ".toList ++
            cmdInfo.getCommand args.distro ++ "\n".toList), [], 0⟩ := by
  refine ⟨by simp [mainReport, hlist], ?_, _, parseResponse_eq readBuffer args.command, ?_⟩
  · intro h
    simp only [CommandInfo.hasDistro] at h
    simp only [CommandInfo.getCommand]
    cases hm : mapFind command.installCommands args.distro with
    | none => rfl
    | some v => rw [hm] at h; simp at h
  · simp [main, search_for, parseResponse_eq, mainReport, hlist]

/-- Witness of C16 as amended: scenario S1 asked for `fedora`, which is absent. -/
theorem single_entry_output_witness :
    main ⟨"tree".toList, "fedora".toList, false⟩ (.body docS1) =
      some ⟨searchingBanner "tree".toList ++ foundBanner "tree".toList ++
        ("\n".toList ++ Icon.FEDORA ++
          "fedora: No installation command found for this distribution\n".toList), [], 0⟩ ∧
    mainReport ⟨"tree".toList, "fedora".toList, false⟩ (CommandInfo.new "tree".toList) =
      ("\n".toList ++ getDistroIcon "fedora".toList ++ "fedora".toList ++ ": ".toList ++
        (CommandInfo.new "tree".toList).getCommand "fedora".toList ++ "\n".toList, 0) :=
  ⟨by decide,
    (single_entry_output ⟨"tree".toList, "fedora".toList, false⟩
      (CommandInfo.new "tree".toList) docS1 rfl).1⟩

/-! ## The fallback pattern captures one letter -/

theorem codeBlockRegex_eq :
    codeBlockRegex = dtOpen.map Item.lit ++
      (Item.star notGt :: (">".toList.map Item.lit ++
        (Item.star notLt :: Item.capPlus isAlpha :: Item.star notLt ::
          (dtClose.map Item.lit ++ ddTail)))) := rfl

theorem matchHere_lits_some (cs : Str) (re : Regex) (s : Str) (r : MatchResult)
    (h : matchHere (cs.map Item.lit ++ re) s = some r) :
    ∃ s', s = cs ++ s' ∧ matchHere re s' = some r := by
  rw [matchHere_lits] at h
  split_ifs at h with hp
  rw [List.isPrefixOf_iff_prefix] at hp
  obtain ⟨t, rfl⟩ := hp
  refine ⟨t, rfl, ?_⟩
  simpa using h

/-- What a match consumed lies in front of its suffix. -/
theorem matchHere_suffix (re : Regex) (s : Str) (r : MatchResult)
    (h : matchHere re s = some r) : ∃ consumed, s = consumed ++ r.suffix := by
  induction re generalizing s r with
  | nil =>
    simp only [matchHere, Option.some.injEq] at h
    subst h
    exact ⟨[], rfl⟩
  | cons it re ih =>
    cases it with
    | lit c =>
      cases s with
      | nil => simp [matchHere] at h
      | cons x s =>
        by_cases hx : x = c
        · simp only [matchHere, hx, if_true] at h
          obtain ⟨u, e⟩ := ih s r h
          exact ⟨x :: u, by simp [e]⟩
        · simp [matchHere, hx] at h
    | star cls =>
      obtain ⟨g, t, e, _, hk⟩ := starGreedy_some cls _ s r h
      obtain ⟨u, e'⟩ := ih t r hk
      exact ⟨g ++ u, by rw [e, e', List.append_assoc]⟩
    | lazyStar cls =>
      obtain ⟨g, t, e, _, hk⟩ := starLazy_some cls _ s r h
      obtain ⟨u, e'⟩ := ih t r hk
      exact ⟨g ++ u, by rw [e, e', List.append_assoc]⟩
    | capPlus cls =>
      obtain ⟨g, t, r', e, _, _, hk, er⟩ := groupPlus_some cls _ s r h
      obtain ⟨u, e'⟩ := ih t r' hk
      subst er
      exact ⟨g ++ u, by rw [e, e', List.append_assoc]⟩

theorem regexSearch_at (re : Regex) (s : Str) (r : MatchResult)
    (h : regexSearch re s = some r) :
    ∃ pre s', s = pre ++ s' ∧ matchHere re s' = some r := by
  induction s with
  | nil => exact ⟨[], [], rfl, by simpa [regexSearch] using h⟩
  | cons c s ih =>
    cases hm : matchHere re (c :: s) with
    | some r' =>
      simp only [regexSearch, hm, Option.some.injEq] at h
      subst h
      exact ⟨[], c :: s, rfl, hm⟩
    | none =>
      simp only [regexSearch, hm] at h
      obtain ⟨pre, s', e, hs⟩ := ih h
      exact ⟨c :: pre, s', by simp [e], hs⟩

/-- Every match of the loop is a match of the pattern at some position of the
text. -/
theorem searchAll_at (re : Regex) (fuel : Nat) (s : Str) (m : MatchResult)
    (h : m ∈ searchAll re fuel s) :
    ∃ pre s', s = pre ++ s' ∧ matchHere re s' = some m := by
  induction fuel generalizing s with
  | zero => simp [searchAll] at h
  | succ fuel ih =>
    simp only [searchAll] at h
    cases hm : regexSearch re s with
    | none => rw [hm] at h; simp at h
    | some m' =>
      rw [hm] at h
      obtain ⟨pre, s', e, hs⟩ := regexSearch_at re s m' hm
      rcases List.mem_cons.1 h with rfl | h
      · exact ⟨pre, s', e, hs⟩
      · obtain ⟨pre2, s2, e2, hs2⟩ := ih _ h
        obtain ⟨u, eu⟩ := matchHere_suffix re s' m' hs
        exact ⟨pre ++ u ++ pre2, s2, by rw [e, eu, e2]; simp [List.append_assoc], hs2⟩

/-- A greedy `X*` before a continuation that cannot start inside the class
gives the same result one class character further on. -/
theorem starGreedy_step (cls : Char → Bool) (k : Str → Option MatchResult)
    (hk : Rejects cls k) (c : Char) (x : Str) (hc : cls c = true) :
    starGreedy cls k (c :: x) = starGreedy cls k x := by
  rw [starGreedy_eq cls k hk, starGreedy_eq cls k hk, List.dropWhile_cons_of_pos hc]

/-- A capture group `(Y+)` before a continuation that gives the same result
from every position of a run of `Y` takes the whole run. -/
theorem groupStar_steady (cls : Char → Bool) (k : Str → Option MatchResult)
    (hs : ∀ c x, cls c = true → k (c :: x) = k x) (x : Str) :
    groupStar cls k x = (k x).map fun r => (x.takeWhile cls, r) := by
  induction x with
  | nil => simp [groupStar]
  | cons c x ih =>
    by_cases hc : cls c = true
    · simp only [groupStar, hc, if_true, ih, hs c x hc, List.takeWhile_cons_of_pos]
      cases k x <;> simp
    · simp [groupStar, hc, List.takeWhile_cons_of_neg]

theorem groupPlus_steady (cls : Char → Bool) (k : Str → Option MatchResult)
    (hs : ∀ c x, cls c = true → k (c :: x) = k x) (c : Char) (x : Str) :
    groupPlus cls k (c :: x) =
      if cls c = true then
        (k x).map fun r => ⟨(c :: x.takeWhile cls) :: r.groups, r.suffix⟩
      else none := by
  by_cases hc : cls c = true
  · simp only [groupPlus, hc, if_true, groupStar_steady cls k hs]
    cases k x <;> simp
  · simp [groupPlus, hc]

/-- When the greedy `X*` in front of the group fails on a text on which the
continuation succeeds, the run of `X` at its start holds no `Y`. -/
theorem greedy_group_none (cls cls2 : Char → Bool) (k : Str → Option MatchResult)
    (hsub : ∀ c, cls2 c = true → cls c = true)
    (hs : ∀ c x, cls c = true → k (c :: x) = k x) (x : Str) (r : MatchResult)
    (hn : starGreedy cls (groupPlus cls2 k) x = none) (hk : k x = some r) :
    ∀ y ∈ x.takeWhile cls, cls2 y = false := by
  induction x with
  | nil => simp
  | cons c x ih =>
    by_cases hc : cls c = true
    · simp only [starGreedy, hc, if_true] at hn
      have hkx : k x = some r := by rw [← hs c x hc]; exact hk
      cases hx : starGreedy cls (groupPlus cls2 k) x with
      | some r' => rw [hx] at hn; simp at hn
      | none =>
        rw [hx] at hn
        simp only at hn
        rw [groupPlus_steady cls2 k (fun c x h => hs c x (hsub c h)), hkx] at hn
        have hc2 : cls2 c = false := by
          cases h2 : cls2 c
          · rfl
          · rw [h2] at hn; simp at hn
        intro y hy
        rw [List.takeWhile_cons_of_pos hc] at hy
        rcases List.mem_cons.1 hy with rfl | hy
        · exact hc2
        · exact ih hx hkx y hy
    · intro y hy
      rw [List.takeWhile_cons_of_neg hc] at hy
      simp at hy

/-- A greedy `X*`, then a capture group `(Y+)` with `Y` inside `X`, then a
continuation that gives the same result from every position of the run of
`X`: the group takes exactly one character, the last `Y` of the run. -/
theorem greedy_group_one (cls cls2 : Char → Bool) (k : Str → Option MatchResult)
    (hsub : ∀ c, cls2 c = true → cls c = true)
    (hs : ∀ c x, cls c = true → k (c :: x) = k x) (s : Str) (r : MatchResult)
    (h : starGreedy cls (groupPlus cls2 k) s = some r) :
    ∃ a c x r', s = a ++ c :: x ∧ (∀ y ∈ a, cls y = true) ∧ cls2 c = true ∧
      (∀ y ∈ x.takeWhile cls, cls2 y = false) ∧ k x = some r' ∧
      r = ⟨[c] :: r'.groups, r'.suffix⟩ := by
  have hs2 : ∀ c x, cls2 c = true → k (c :: x) = k x := fun c x h => hs c x (hsub c h)
  induction s with
  | nil => simp [starGreedy, groupPlus] at h
  | cons c s ih =>
    by_cases hc : cls c = true
    · simp only [starGreedy, hc, if_true] at h
      cases hx : starGreedy cls (groupPlus cls2 k) s with
      | some r1 =>
        rw [hx] at h
        simp only [Option.some.injEq] at h
        subst h
        obtain ⟨a, c', x, r', e, ha, hc', hno, hk, er⟩ := ih hx
        refine ⟨c :: a, c', x, r', by simp [e], ?_, hc', hno, hk, er⟩
        intro y hy
        rcases List.mem_cons.1 hy with rfl | hy
        · exact hc
        · exact ha y hy
      | none =>
        rw [hx] at h
        simp only at h
        rw [groupPlus_steady cls2 k hs2] at h
        by_cases hc2 : cls2 c = true
        · rw [if_pos hc2] at h
          cases hk : k s with
          | none => rw [hk] at h; simp at h
          | some r' =>
            rw [hk] at h
            simp only [Option.map_some', Option.some.injEq] at h
            have hno := greedy_group_none cls cls2 k hsub hs s r' hx hk
            have ht : s.takeWhile cls2 = [] := by
              cases s with
              | nil => rfl
              | cons y s =>
                by_cases hy : cls2 y = true
                · have := hno y (by rw [List.takeWhile_cons_of_pos (hsub y hy)]; simp)
                  rw [hy] at this
                  exact Bool.noConfusion this
                · exact List.takeWhile_cons_of_neg hy
            rw [ht] at h
            exact ⟨[], c, s, r', rfl, by simp, hc2, hno, hk, h.symm⟩
        · rw [if_neg hc2] at h
          simp at h
    · simp only [starGreedy, hc] at h
      rw [groupPlus_steady cls2 k hs2] at h
      have hc2 : ¬ cls2 c = true := fun h2 => hc (hsub c h2)
      rw [if_neg hc2] at h
      simp at h

theorem isAlpha_notLt (c : Char) (h : isAlpha c = true) : notLt c = true := by
  simp only [notLt, bne_iff_ne, ne_eq]
  rintro rfl
  revert h
  decide

/-- A match of the fallback pattern: the text is `<dt`, attributes, `>`, a
`<dt>` text without `<` up to `</dt>`, and sub-match 1 is the single
character that is the last letter of that text. -/
theorem codeBlockRegex_capture (s : Str) (m : MatchResult)
    (h : matchHere codeBlockRegex s = some m) :
    ∃ attrs a c b rest, s = dtOpen ++ (attrs ++ ('>' :: (a ++ (c :: (b ++ (dtClose ++ rest)))))) ∧
      '<' ∉ a ∧ '<' ∉ b ∧ isAlpha c = true ∧ (∀ y ∈ b, isAlpha y = false) ∧
      m.group 1 = [c] := by
  rw [codeBlockRegex_eq] at h
  obtain ⟨s1, e1, h1⟩ := matchHere_lits_some _ _ _ _ h
  rw [matchHere_star] at h1
  obtain ⟨attrs, s2, e2, _, h2⟩ := starGreedy_some _ _ _ _ h1
  obtain ⟨s3, e3, h3⟩ := matchHere_lits_some _ _ _ _ h2
  have hk : Rejects notLt (matchHere (dtClose.map Item.lit ++ ddTail)) :=
    rejects_lits notLt '<' "/dt>".toList _ rfl
  have h3' : starGreedy notLt (groupPlus isAlpha
      (starGreedy notLt (matchHere (dtClose.map Item.lit ++ ddTail)))) s3 = some m := h3
  obtain ⟨a, c, x, r', e4, ha, hc, hno, hkx, er⟩ :=
    greedy_group_one notLt isAlpha _ isAlpha_notLt
      (fun c x hc => starGreedy_step notLt _ hk c x hc) s3 m h3'
  rw [starGreedy_eq notLt _ hk] at hkx
  obtain ⟨rest, e5, _⟩ := matchHere_lits_some _ _ _ _ hkx
  have ex : x = x.takeWhile notLt ++ (dtClose ++ rest) := by
    rw [← e5, List.takeWhile_append_dropWhile]
  refine ⟨attrs, a, c, x.takeWhile notLt, rest, ?_, ?_, ?_, hc, hno, ?_⟩
  · rw [e1, e2, e3, e4, ← ex]
    rfl
  · intro hm
    have := ha _ hm
    revert this
    decide
  · intro hm
    have := List.mem_takeWhile_imp hm
    revert this
    decide
  · rw [er]
    rfl

theorem strContains_single (x : Char) (w : Str) (hw : 2 ≤ w.length) :
    strContains [x] w = false := by
  match w, hw with
  | a :: b :: w, _ => simp [strContains, List.isPrefixOf]

theorem fallbackKey_single (c : Char) : fallbackKey [c] = [toLowerChar c] := by
  simp only [fallbackKey, List.map_cons, List.map_nil]
  rw [strContains_single _ _ (by decide), strContains_single _ _ (by decide),
    strContains_single _ _ (by decide), strContains_single _ _ (by decide),
    strContains_single _ _ (by decide), strContains_single _ _ (by decide),
    strContains_single _ _ (by decide), strContains_single _ _ (by decide)]
  simp

theorem toNat_ofNat_upper (n : Nat) (h1 : 65 ≤ n) (h2 : n ≤ 90) :
    (Char.ofNat (n + 32)).toNat = n + 32 := by
  interval_cases n <;> rfl

theorem toLowerChar_alpha (c : Char) (h : isAlpha c = true) :
    97 ≤ (toLowerChar c).toNat ∧ (toLowerChar c).toNat ≤ 122 := by
  simp only [isAlpha, Bool.or_eq_true, Bool.and_eq_true, decide_eq_true_eq] at h
  by_cases hu : 65 ≤ c.toNat ∧ c.toNat ≤ 90
  · simp only [toLowerChar, hu, and_self, if_true, toNat_ofNat_upper _ hu.1 hu.2]
    omega
  · simp only [toLowerChar, hu, if_false]
    omega

theorem fallbackMatches_capture (response : Str) (m : MatchResult)
    (h : m ∈ fallbackMatches response) :
    ∃ pre attrs a c b rest,
      response = pre ++ (dtOpen ++ (attrs ++ ('>' :: (a ++ (c :: (b ++ (dtClose ++ rest))))))) ∧
      '<' ∉ a ∧ '<' ∉ b ∧ isAlpha c = true ∧ (∀ y ∈ b, isAlpha y = false) ∧
      m.group 1 = [c] := by
  obtain ⟨pre, s', e, hs⟩ := searchAll_at codeBlockRegex _ response m h
  obtain ⟨attrs, a, c, b, rest, e', h1, h2, h3, h4, h5⟩ := codeBlockRegex_capture s' m hs
  exact ⟨pre, attrs, a, c, b, rest, by rw [e, e'], h1, h2, h3, h4, h5⟩

/-- C19. For a document without primary match, every fallback match has as
sub-match 1 exactly one character, the last ASCII letter of the `<dt>`
text (the text without `<` between the `>` of `<dt…>` and `</dt>`); none of
the substrings the fallback chain looks for occurs in it, so the key stored
is that letter in lower case, and every key of the record `parseResponse`
returns is a single lowercase ASCII letter. -/
theorem fallback_key_single_letter (response name : Str)
    (h0 : primaryMatches response = []) :
    (∀ m ∈ fallbackMatches response,
      ∃ pre attrs a c b rest,
        response =
          pre ++ (dtOpen ++ (attrs ++ ('>' :: (a ++ (c :: (b ++ (dtClose ++ rest))))))) ∧
        '<' ∉ a ∧ '<' ∉ b ∧ isAlpha c = true ∧ (∀ y ∈ b, isAlpha y = false) ∧
        m.group 1 = [c] ∧
        (∀ w ∈ fallbackWords, strContains ((m.group 1).map toLowerChar) w = false) ∧
        fallbackKey (m.group 1) = [toLowerChar c]) ∧
    ∃ cmdInfo, parseResponse response name = some cmdInfo ∧
      ∀ k ∈ cmdInfo.getSupportedDistros, ∃ c, k = [c] ∧ 97 ≤ c.toNat ∧ c.toNat ≤ 122 := by
  constructor
  · intro m hm
    obtain ⟨pre, attrs, a, c, b, rest, e, h1, h2, h3, h4, h5⟩ :=
      fallbackMatches_capture response m hm
    refine ⟨pre, attrs, a, c, b, rest, e, h1, h2, h3, h4, h5, ?_, ?_⟩
    · intro w hw
      rw [h5]
      apply strContains_single
      simp only [fallbackWords, List.mem_cons, List.mem_singleton, List.not_mem_nil,
        or_false] at hw
      rcases hw with rfl | rfl | rfl | rfl | rfl | rfl | rfl | rfl <;> decide
    · rw [h5, fallbackKey_single]
  · refine ⟨_, parseResponse_eq response name, ?_⟩
    rw [if_pos h0, foldl_fallbackBody]
    intro k hk
    rw [addAll_keys] at hk
    rcases hk with hk | hk
    · simp only [List.map_map, List.mem_map, Function.comp] at hk
      obtain ⟨m, hm, rfl⟩ := hk
      obtain ⟨_, _, _, c, _, _, _, _, _, h3, _, h5⟩ := fallbackMatches_capture response m hm
      refine ⟨toLowerChar c, ?_, toLowerChar_alpha c h3⟩
      simp only [fallbackEntry, h5, fallbackKey_single]
    · simp [CommandInfo.new, CommandInfo.getSupportedDistros] at hk

/-- Witness of C19: scenario S4, stored under `x`, the last letter of
`Arch Linux`. -/
theorem fallback_key_single_letter_witness :
    primaryMatches docS4 = [] ∧
    (fallbackMatches docS4).map (fun m => m.group 1) = ["x".toList] ∧
    ∃ cmdInfo, parseResponse docS4 "neovim".toList = some cmdInfo ∧
      ∀ k ∈ cmdInfo.getSupportedDistros, ∃ c, k = [c] ∧ 97 ≤ c.toNat ∧ c.toNat ≤ 122 :=
  ⟨by decide, by decide,
    (fallback_key_single_letter docS4 "neovim".toList (by decide)).2⟩

/-- Witness of C20: a command of 76 characters for the record name `tree`. -/
theorem wrapping_lossless_witness :
    (∀ c ∈ "tree".toList, c ∉ metaChars) ∧
    68 < "sudo apt-get update && sudo apt-get install -y --no-install-recommends tree".toList.length ∧
    ∃ formattedCmd chunks,
      (⟨"tree".toList, []⟩ : CommandInfo).formatCommand
        "sudo apt-get update && sudo apt-get install -y --no-install-recommends tree".toList =
        some formattedCmd ∧
      "sudo apt-get update && sudo apt-get install -y --no-install-recommends tree".toList.length ≤
        formattedCmd.length ∧
      (formattedCmd.take 65).length = 65 ∧
      continuationChunks formattedCmd (formattedCmd.length + 1) 65 = some chunks ∧
      (∀ chunk ∈ chunks, chunk ≠ [] ∧ chunk.length ≤ 56) ∧
      formattedCmd.take 65 ++ chunks.flatten = formattedCmd ∧
      (⟨"tree".toList, []⟩ : CommandInfo).streamEntry "ubuntu".toList
          "sudo apt-get update && sudo apt-get install -y --no-install-recommends tree".toList =
        some (distroColumn "ubuntu".toList ++
          (Icon.ARROW ++ " ".toList ++ formattedCmd.take 65 ++ "...".toList ++ "\n".toList ++
            (chunks.map fun chunk =>
              List.replicate 12 ' ' ++ chunk ++ "\n".toList).flatten)) :=
  ⟨by decide, by decide,
    wrapping_lossless ⟨"tree".toList, []⟩ "ubuntu".toList
      "sudo apt-get update && sudo apt-get install -y --no-install-recommends tree".toList
      (by decide) (by decide)⟩

/-! ## The `<code>` element of the matched div -/

/-- C6, amended. For every primary match `m` of a document, found at the text
`text`: whenever `text` reads as an opening tag (class suffix D and
`data-os` value non-empty without `"`), then a stretch `pre` of the div
that holds no `</div>` and in which no `<code>` element with non-empty
content without `<` closed by `</code>` starts (empty `<code>` elements and
ones with markup may occur in it), then `<code>C</code>` with C non-empty
without `<`, and later `</div>`, so that this element is the first such one
inside the matched div, sub-match 1 is D and the command stored is C, never
the content of a later `<code>` of the div or of a later div. -/
theorem first_code_in_div (response : Str) (m : MatchResult)
    (hm : m ∈ primaryMatches response) :
    ∃ before text, response = before ++ text ∧ matchHere installDivRegex text = some m ∧
      ∀ (b : Block) (pre post rest : Str),
        text = divOpen ++ (b.distro ++ (dataOs ++ (b.os ++ (tagEnd ++ (pre ++
          (codeOpen ++ (b.command ++ (codeClose ++ (post ++ (divClose ++ rest)))))))))) →
        b.WellFormed →
        strContains pre divClose = false →
        noEarlierCode pre
          (codeOpen ++ (b.command ++ (codeClose ++ (post ++ (divClose ++ rest))))) = true →
        m.group 1 = b.distro ∧ m.group 3 = b.command ∧
          ∀ cmdInfo : CommandInfo,
            primaryBody cmdInfo m = cmdInfo.addDistroCommand (primaryKey b.distro) b.command := by
  obtain ⟨before, text, e, ht⟩ := searchAll_at installDivRegex _ response m hm
  refine ⟨before, text, e, ht, ?_⟩
  intro b pre post rest etext hb _ hpre
  obtain ⟨sfx, hs⟩ := first_code_match b pre post rest hb hpre
  rw [etext, hs] at ht
  simp only [Option.some.injEq] at ht
  subst ht
  exact ⟨rfl, rfl, fun _ => rfl⟩

/-- Witness of C6 as amended: in the first div an empty `<code>` and one with
markup come before `<code>pacman -S tree</code>` and another `<code>` comes
after it; the match stores `pacman -S tree` for `arch`. -/
theorem first_code_in_div_witness :
    primaryMatches docFirstCode =
      [⟨["arch".toList, "Arch Linux".toList, "pacman -S tree".toList],
          "<div class=\"command-install install-ubuntu\" data-os=\"Ubuntu\"><code>sudo apt install tree</code></div>".toList⟩,
        ⟨["ubuntu".toList, "Ubuntu".toList, "sudo apt install tree".toList], []⟩] ∧
    docFirstCode = "<p>intro</p>".toList ++
      (divOpen ++ (blockArch.distro ++ (dataOs ++ (blockArch.os ++ (tagEnd ++
        ("\n<p>x</p><code></code><code><b>x</b></code>\n".toList ++
          (codeOpen ++ (blockArch.command ++ (codeClose ++ ("<code>later</code>".toList ++
            (divClose ++ "<div class=\"command-install install-ubuntu\" data-os=\"Ubuntu\"><code>sudo apt install tree</code></div>".toList))))))))))) ∧
    strContains "\n<p>x</p><code></code><code><b>x</b></code>\n".toList divClose = false ∧
    noEarlierCode "\n<p>x</p><code></code><code><b>x</b></code>\n".toList
      (codeOpen ++ (blockArch.command ++ (codeClose ++ ("<code>later</code>".toList ++
        (divClose ++ "<div class=\"command-install install-ubuntu\" data-os=\"Ubuntu\"><code>sudo apt install tree</code></div>".toList))))) = true ∧
    ∃ before text, docFirstCode = before ++ text ∧
      matchHere installDivRegex text =
        some ⟨["arch".toList, "Arch Linux".toList, "pacman -S tree".toList],
          "<div class=\"command-install install-ubuntu\" data-os=\"Ubuntu\"><code>sudo apt install tree</code></div>".toList⟩ ∧
      ∀ (b : Block) (pre post rest : Str),
        text = divOpen ++ (b.distro ++ (dataOs ++ (b.os ++ (tagEnd ++ (pre ++
          (codeOpen ++ (b.command ++ (codeClose ++ (post ++ (divClose ++ rest)))))))))) →
        b.WellFormed →
        strContains pre divClose = false →
        noEarlierCode pre
          (codeOpen ++ (b.command ++ (codeClose ++ (post ++ (divClose ++ rest))))) = true →
        (⟨["arch".toList, "Arch Linux".toList, "pacman -S tree".toList],
          "<div class=\"command-install install-ubuntu\" data-os=\"Ubuntu\"><code>sudo apt install tree</code></div>".toList⟩ :
            MatchResult).group 1 = b.distro ∧
        (⟨["arch".toList, "Arch Linux".toList, "pacman -S tree".toList],
          "<div class=\"command-install install-ubuntu\" data-os=\"Ubuntu\"><code>sudo apt install tree</code></div>".toList⟩ :
            MatchResult).group 3 = b.command ∧
          ∀ cmdInfo : CommandInfo,
            primaryBody cmdInfo
                ⟨["arch".toList, "Arch Linux".toList, "pacman -S tree".toList],
                  "<div class=\"command-install install-ubuntu\" data-os=\"Ubuntu\"><code>sudo apt install tree</code></div>".toList⟩ =
              cmdInfo.addDistroCommand (primaryKey b.distro) b.command :=
  ⟨by decide, by decide, by decide, by decide,
    first_code_in_div docFirstCode
      ⟨["arch".toList, "Arch Linux".toList, "pacman -S tree".toList],
        "<div class=\"command-install install-ubuntu\" data-os=\"Ubuntu\"><code>sudo apt install tree</code></div>".toList⟩
      (by decide)⟩

end Commandy
